import Mathlib

/-!
Verification of the strudel.nvim LSP engine (src/js/lsp/cm_engine.ts and
src/js/lsp/server.ts) against its natural-language specification.

Texts are modelled as `List Char` (JS strings over UTF-16 code units; all
inputs considered here are within the BMP, where one code unit is one
"Char").  Offsets supplied by callers are modelled as `Int` (JS numbers),
clamped exactly as the source clamps them.
-/

set_option maxRecDepth 10000

namespace Strudel

/-- The single-quote character `'` (code 39), written via `Char.ofNat`. -/
def squote : Char := Char.ofNat 39

/-- The double-quote character. -/
def dquote : Char := '"'

/-- The backtick character (code 96). -/
def btick : Char := Char.ofNat 96

/-- The left-brace character (code 123). -/
def lbrace : Char := Char.ofNat 123

/-- `Math.min(Math.max(cursorOffset, 0), text.length)` from `makeContext`
(cm_engine.ts line 180) and `isInsideString` (line 37). -/
def clampOffset (off : Int) (len : Nat) : Nat :=
  if off < 0 then 0 else min off.toNat len

/-- One regex-engine `exec` result inside the lookbehind window:
`index` is `m.index`, `length` is `m[0].length` (cm_engine.ts 195-198). -/
structure ExecMatch where
  index : Nat
  length : Nat
deriving DecidableEq, Repr

/-- The value `matchBefore` hands to a handler: `from`, `to` and the matched
text (`from`/`to` are reserved words in Lean, hence `mfrom`/`mto`). -/
structure MatchSpan where
  mfrom : Nat
  mto : Nat
deriving DecidableEq, Repr

/-- The retention loop of `makeContext`'s `matchBefore` (cm_engine.ts
193-208): iterate over the `exec` results on the window text and keep the
last-seen match whose end coincides with the window end. -/
def matchBeforeBest (ms : List ExecMatch) (windowLen : Nat) : Option ExecMatch :=
  ms.foldl (fun best m => if m.index + m.length == windowLen then some m else best) none

/-- The lookbehind window of `makeContext` (cm_engine.ts 180-182):
`to = clamp(cursorOffset)`, `windowFrom = Math.max(0, to - 8192)` (written
with an explicit comparison, which on `Nat` is the same value as the
truncated subtraction), `windowText = text.slice(windowFrom, to)`.
Returns `(windowFrom, windowText)`. -/
def windowOf (text : List Char) (cursorOffset : Int) : Nat × List Char :=
  let toOff := clampOffset cursorOffset text.length
  let windowFrom := if toOff ≤ 8192 then 0 else toOff - 8192
  (windowFrom, (text.take toOff).drop windowFrom)

/-- `makeContext(text, cursorOffset).matchBefore(re)` (cm_engine.ts
187-216), abstracted over the sequence `ms` of `exec` results that the
regex engine produces on the window text, in iteration order.  The final
`{from, to}` is rebased by `windowFrom` as in lines 213-215. -/
def makeContextMatchBefore (text : List Char) (cursorOffset : Int)
    (ms : List ExecMatch) : Option MatchSpan :=
  (matchBeforeBest ms (windowOf text cursorOffset).2.length).map fun m =>
    ⟨(windowOf text cursorOffset).1 + m.index,
     (windowOf text cursorOffset).1 + m.index + m.length⟩

/-- The keep-last fold equals "last element of the filtered list, else the
accumulator". -/
lemma foldl_keepLast {α : Type} (p : α → Bool) :
    ∀ (l : List α) (acc : Option α),
      l.foldl (fun best m => if p m then some m else best) acc
        = ((l.filter p).getLast?).or acc := by
  intro l
  induction l with
  | nil => intro acc; simp
  | cons a t ih =>
      intro acc
      simp only [List.foldl_cons, List.filter_cons]
      cases h : p a with
      | true =>
          simp only [if_pos rfl, ih]
          cases hf : t.filter p with
          | nil => simp
          | cons b u =>
              have hs : ∃ x, (b :: u).getLast? = some x := by
                cases hg : (b :: u).getLast? with
                | none => exact absurd (List.getLast?_eq_none_iff.mp hg) (by simp)
                | some x => exact ⟨x, rfl⟩
              obtain ⟨x, hx⟩ := hs
              simp [List.getLast?_cons_cons, hx]
      | false => simp [ih]

lemma matchBeforeBest_eq_getLast (ms : List ExecMatch) (L : Nat) :
    matchBeforeBest ms L
      = (ms.filter (fun m => m.index + m.length == L)).getLast? := by
  unfold matchBeforeBest
  rw [foldl_keepLast (fun m => m.index + m.length == L) ms none]
  exact Option.or_none

lemma clampOffset_le_length (off : Int) (len : Nat) : clampOffset off len ≤ len := by
  unfold clampOffset
  split
  · exact Nat.zero_le _
  · exact Nat.min_le_right _ _

lemma windowOf_length (text : List Char) (off : Int) :
    (windowOf text off).2.length
      = clampOffset off text.length - (windowOf text off).1 := by
  unfold windowOf
  simp only [List.length_drop, List.length_take]
  rw [Nat.min_eq_left (clampOffset_le_length off text.length)]

lemma windowOf_fst_le (text : List Char) (off : Int) :
    (windowOf text off).1 ≤ clampOffset off text.length := by
  show (if clampOffset off text.length ≤ 8192 then 0
      else clampOffset off text.length - 8192) ≤ clampOffset off text.length
  split
  · exact Nat.zero_le _
  · exact Nat.sub_le _ _

lemma matchBeforeBest_pred {ms : List ExecMatch} {L : Nat} {m : ExecMatch}
    (h : matchBeforeBest ms L = some m) : m.index + m.length = L := by
  rw [matchBeforeBest_eq_getLast] at h
  obtain ⟨ys, hys⟩ := List.getLast?_eq_some_iff.mp h
  have hm : m ∈ ms.filter (fun m => m.index + m.length == L) := by
    rw [hys]; exact List.mem_append_right _ (List.mem_singleton.mpr rfl)
  have := (List.mem_filter.mp hm).2
  simpa using this

/-- C1. `matchBefore` built by `makeContext`: whatever sequence of matches
the regex engine enumerates on the lookbehind window, (a) a non-null result
always ends exactly at the clamped cursor offset, (b) the retained match is
the last one in iteration order among those ending at the window end (the
rightmost), and (c) `null` is returned exactly when no enumerated match
ends at the cursor. -/
theorem matchBefore_rightmost (text : List Char) (cursorOffset : Int)
    (ms : List ExecMatch) :
    (∀ r, makeContextMatchBefore text cursorOffset ms = some r →
        r.mto = clampOffset cursorOffset text.length) ∧
    (matchBeforeBest ms (windowOf text cursorOffset).2.length
        = (ms.filter
            (fun m => m.index + m.length
              == (windowOf text cursorOffset).2.length)).getLast?) ∧
    (makeContextMatchBefore text cursorOffset ms = none ↔
        ∀ m ∈ ms, m.index + m.length ≠ (windowOf text cursorOffset).2.length) := by
  refine ⟨?_, matchBeforeBest_eq_getLast _ _, ?_⟩
  · intro r h
    unfold makeContextMatchBefore at h
    cases hb : matchBeforeBest ms (windowOf text cursorOffset).2.length with
    | none => rw [hb] at h; simp at h
    | some m =>
        rw [hb] at h
        rw [show (some m).map (fun m : ExecMatch =>
          (⟨(windowOf text cursorOffset).1 + m.index,
            (windowOf text cursorOffset).1 + m.index + m.length⟩ : MatchSpan))
          = some ⟨(windowOf text cursorOffset).1 + m.index,
            (windowOf text cursorOffset).1 + m.index + m.length⟩ from rfl] at h
        have hpred := matchBeforeBest_pred hb
        injection h with h2
        subst h2
        show (windowOf text cursorOffset).1 + m.index + m.length
          = clampOffset cursorOffset text.length
        rw [Nat.add_assoc, hpred, windowOf_length]
        exact Nat.add_sub_cancel' (windowOf_fst_le text cursorOffset)
  · unfold makeContextMatchBefore
    rw [matchBeforeBest_eq_getLast]
    constructor
    · intro h m hm
      rw [Option.map_eq_none'] at h
      intro hEnd
      have : m ∈ ms.filter
          (fun m => m.index + m.length == (windowOf text cursorOffset).2.length) :=
        List.mem_filter.mpr ⟨hm, by simpa using hEnd⟩
      rw [List.getLast?_eq_none_iff] at h
      rw [h] at this
      exact absurd this (List.not_mem_nil m)
    · intro h
      have : ms.filter
          (fun m => m.index + m.length == (windowOf text cursorOffset).2.length) = [] := by
        rw [List.filter_eq_nil_iff]
        intro m hm
        simpa using h m hm
      rw [this]
      rfl

/-- Witness for C1 at a concrete input: two matches end at the window end
and the later ⟨1,2⟩ wins; its `mto` is the clamped cursor offset 3. -/
theorem matchBefore_rightmost_witness :
    makeContextMatchBefore ("abc".toList) 3
        [⟨0, 3⟩, ⟨1, 2⟩, ⟨0, 1⟩] = some ⟨1, 3⟩ ∧
    (⟨1, 3⟩ : MatchSpan).mto = clampOffset 3 ("abc".toList).length :=
  ⟨by decide,
   (matchBefore_rightmost ("abc".toList) 3 [⟨0, 3⟩, ⟨1, 2⟩, ⟨0, 1⟩]).1
     ⟨1, 3⟩ (by decide)⟩

/-! ## Lexical context classifier (`isInsideString`, cm_engine.ts 36-77) -/

/-- Scanner state: the currently open quote kind and the escape flag. -/
structure ScanState where
  inQuote : Option Char
  escaped : Bool
deriving DecidableEq, Repr

/-- `ch === "'" || ch === '"' || ch === "\x60"`. -/
def isQuoteChar (c : Char) : Bool := c = squote || c = dquote || c = btick

/-- One iteration of the `isInsideString` scan loop (cm_engine.ts 42-74):
an escaped character is skipped; a backslash sets the escape flag; a quote
opens when none is open, closes when it matches the open kind, and is inert
otherwise (falling through to the newline check); a newline closes
single/double-quoted strings but not backtick strings. -/
def scanStep (st : ScanState) (ch : Char) : ScanState :=
  if st.escaped then ⟨st.inQuote, false⟩
  else if ch = '\\' then ⟨st.inQuote, true⟩
  else if isQuoteChar ch ∧ st.inQuote = none then ⟨some ch, st.escaped⟩
  else if isQuoteChar ch ∧ st.inQuote = some ch then ⟨none, st.escaped⟩
  else if ch = '\n' ∧ (st.inQuote = some squote ∨ st.inQuote = some dquote) then
    ⟨none, false⟩
  else st

/-- `isInsideString(text, cursorOffset)`: scan the clamped prefix and test
whether a quote is still open. -/
def isInsideString (text : List Char) (cursorOffset : Int) : Bool :=
  ((text.take (clampOffset cursorOffset text.length)).foldl
      scanStep ⟨none, false⟩).inQuote.isSome

/-- C6. `isInsideString` is false at offset 0 for every text; each
unescaped quote of the active kind toggles the state exactly once (it
opens when no quote is open, closes when it matches the open kind, and a
quote of a different kind is inert); an unescaped newline closes
single- and double-quoted strings but leaves a backtick (block) string
open; an escaped character never changes the open-quote state. -/
theorem isInsideString_spec :
    (∀ text : List Char, isInsideString text 0 = false) ∧
    (scanStep ⟨none, false⟩ squote = ⟨some squote, false⟩ ∧
     scanStep ⟨none, false⟩ dquote = ⟨some dquote, false⟩ ∧
     scanStep ⟨none, false⟩ btick = ⟨some btick, false⟩) ∧
    (scanStep ⟨some squote, false⟩ squote = ⟨none, false⟩ ∧
     scanStep ⟨some dquote, false⟩ dquote = ⟨none, false⟩ ∧
     scanStep ⟨some btick, false⟩ btick = ⟨none, false⟩) ∧
    (scanStep ⟨some squote, false⟩ dquote = ⟨some squote, false⟩ ∧
     scanStep ⟨some squote, false⟩ btick = ⟨some squote, false⟩ ∧
     scanStep ⟨some dquote, false⟩ squote = ⟨some dquote, false⟩ ∧
     scanStep ⟨some dquote, false⟩ btick = ⟨some dquote, false⟩ ∧
     scanStep ⟨some btick, false⟩ squote = ⟨some btick, false⟩ ∧
     scanStep ⟨some btick, false⟩ dquote = ⟨some btick, false⟩) ∧
    (scanStep ⟨some squote, false⟩ '\n' = ⟨none, false⟩ ∧
     scanStep ⟨some dquote, false⟩ '\n' = ⟨none, false⟩ ∧
     scanStep ⟨some btick, false⟩ '\n' = ⟨some btick, false⟩) ∧
    (∀ (q : Option Char) (c : Char), scanStep ⟨q, true⟩ c = ⟨q, false⟩) := by
  refine ⟨?_, by decide, by decide, by decide, by decide, ?_⟩
  · intro text
    unfold isInsideString clampOffset
    norm_num
  · intro q c
    simp [scanStep]

/-! ## The fallback word regex `/\w*/` and `fallbackHandler`
(cm_engine.ts 316, 515-520) -/

/-- `\w` of JS regexes: `[A-Za-z0-9_]`. -/
def isWordChar (c : Char) : Bool :=
  ('A' ≤ c && c ≤ 'Z') || ('a' ≤ c && c ≤ 'z') || ('0' ≤ c && c ≤ '9') || c = '_'

/-- Length of the greedy `\w*` match at the head of a list. -/
def wordRunLen : List Char → Nat
  | [] => 0
  | c :: tl => if isWordChar c then wordRunLen tl + 1 else 0

lemma wordRunLen_le (l : List Char) : wordRunLen l ≤ l.length := by
  induction l with
  | nil => simp [wordRunLen]
  | cons c tl ih =>
      simp only [wordRunLen, List.length_cons]
      split
      · exact Nat.succ_le_succ ih
      · exact Nat.zero_le _

/-- The sequence of `exec` results of the global regex `/\w*/g` on a
string, together with `makeContext`'s manual `lastIndex` bump past empty
matches (cm_engine.ts 195-208): at each search position the regex matches
the greedy word run (possibly empty); a nonempty match advances `lastIndex`
to its end, an empty match is bumped one position forward.  `fuel` is a
structural-termination device; it is always called with
`fuel > rem.length`, which suffices since every step consumes fuel while
the position advances. -/
def execWordStarAux : Nat → List Char → Nat → List ExecMatch
  | 0, _, _ => []
  | fuel + 1, rem, pos =>
      if wordRunLen rem = 0 then
        match rem with
        | [] => [⟨pos, 0⟩]
        | _ :: tl => ⟨pos, 0⟩ :: execWordStarAux fuel tl (pos + 1)
      else
        ⟨pos, wordRunLen rem⟩ ::
          execWordStarAux fuel (rem.drop (wordRunLen rem)) (pos + wordRunLen rem)

/-- All `exec` results of `/\w*/g` on `rem`, starting at position `pos`. -/
def execWordStarMatches (rem : List Char) (pos : Nat) : List ExecMatch :=
  execWordStarAux (rem.length + 1) rem pos

/-- The iteration always ends with the empty match at the end of the
input: `exec` at `lastIndex = length` matches `""` there, and its end
equals the input length. -/
lemma execWordStarAux_getLast :
    ∀ (fuel : Nat) (rem : List Char) (pos : Nat), rem.length < fuel →
      (execWordStarAux fuel rem pos).getLast? = some ⟨pos + rem.length, 0⟩ := by
  intro fuel
  induction fuel with
  | zero => intro rem pos h; omega
  | succ f ih =>
      intro rem pos h
      simp only [execWordStarAux]
      by_cases hr : wordRunLen rem = 0
      · rw [if_pos hr]
        cases rem with
        | nil => simp
        | cons c tl =>
            show ((⟨pos, 0⟩ : ExecMatch) :: execWordStarAux f tl (pos + 1)).getLast?
              = some ⟨pos + (c :: tl).length, 0⟩
            have hlt : tl.length < f := by
              simp only [List.length_cons] at h; omega
            have hlast := ih tl (pos + 1) hlt
            cases he : execWordStarAux f tl (pos + 1) with
            | nil => rw [he] at hlast; simp at hlast
            | cons b u =>
                rw [he] at hlast
                rw [List.getLast?_cons_cons, hlast]
                have : pos + 1 + tl.length = pos + (c :: tl).length := by
                  simp only [List.length_cons]; omega
                rw [this]
      · rw [if_neg hr]
        have hR1 : 1 ≤ wordRunLen rem := Nat.one_le_iff_ne_zero.mpr hr
        have hRle := wordRunLen_le rem
        have hlen : (rem.drop (wordRunLen rem)).length < f := by
          simp only [List.length_drop]; omega
        have hlast := ih (rem.drop (wordRunLen rem)) (pos + wordRunLen rem) hlen
        cases he : execWordStarAux f (rem.drop (wordRunLen rem)) (pos + wordRunLen rem) with
        | nil => rw [he] at hlast; simp at hlast
        | cons b u =>
            rw [he] at hlast
            rw [List.getLast?_cons_cons, hlast]
            have : pos + wordRunLen rem + (rem.drop (wordRunLen rem)).length
                = pos + rem.length := by
              simp only [List.length_drop]; omega
            rw [this]

/-- If the overall last `exec` result ends at the window end, the
retention loop returns exactly it. -/
lemma matchBeforeBest_of_getLast {ms : List ExecMatch} {L : Nat} {m : ExecMatch}
    (h : ms.getLast? = some m) (hp : m.index + m.length = L) :
    matchBeforeBest ms L = some m := by
  rw [matchBeforeBest_eq_getLast]
  obtain ⟨ys, rfl⟩ := List.getLast?_eq_some_iff.mp h
  rw [List.filter_append]
  have : List.filter (fun m => m.index + m.length == L) [m] = [m] := by
    simp [hp]
  rw [this, List.getLast?_concat]

/-- `matchBefore(FALLBACK_WORD_REGEX)` — the engine's word match used by
`fallbackHandler`: the generic `matchBefore` applied to the `exec`
iteration of `/\w*/g` on the window text. -/
def matchBeforeWordStar (text : List Char) (cursorOffset : Int) : Option MatchSpan :=
  makeContextMatchBefore text cursorOffset
    (execWordStarMatches (windowOf text cursorOffset).2 0)

/-- The word match is always the zero-length span at the clamped cursor:
the final empty match at the window end supersedes any earlier word
match in the keep-last retention loop. -/
lemma matchBeforeWordStar_eq (text : List Char) (cursorOffset : Int) :
    matchBeforeWordStar text cursorOffset
      = some ⟨clampOffset cursorOffset text.length,
              clampOffset cursorOffset text.length⟩ := by
  unfold matchBeforeWordStar makeContextMatchBefore execWordStarMatches
  have hlast := execWordStarAux_getLast ((windowOf text cursorOffset).2.length + 1)
    (windowOf text cursorOffset).2 0 (Nat.lt_succ_self _)
  have hbest := matchBeforeBest_of_getLast
    (L := (windowOf text cursorOffset).2.length) hlast (by simp)
  rw [hbest]
  rw [show (some (⟨0 + (windowOf text cursorOffset).2.length, 0⟩ : ExecMatch)).map
      (fun m : ExecMatch =>
        (⟨(windowOf text cursorOffset).1 + m.index,
          (windowOf text cursorOffset).1 + m.index + m.length⟩ : MatchSpan))
    = some ⟨(windowOf text cursorOffset).1 + (0 + (windowOf text cursorOffset).2.length),
        (windowOf text cursorOffset).1 + (0 + (windowOf text cursorOffset).2.length) + 0⟩
    from rfl]
  have h1 : (windowOf text cursorOffset).1 + (0 + (windowOf text cursorOffset).2.length)
      = clampOffset cursorOffset text.length := by
    rw [Nat.zero_add, windowOf_length]
    exact Nat.add_sub_cancel' (windowOf_fst_le text cursorOffset)
  rw [h1, Nat.add_zero]

/-- `CmCompletionOption` (cm_engine.ts 1-8); the fields not used by the
handlers under study (`canonicalName`, `isSynonym`) are omitted. -/
structure CmOption where
  label : List Char
  type : Option (List Char) := none
  apply : Option (List Char) := none
  filterText : Option (List Char) := none
deriving DecidableEq, Repr

/-- `CmCompletionResult` (cm_engine.ts 10-13).  `rfrom` is the source's
`from` (a reserved word in Lean). -/
structure CmResult where
  rfrom : Nat
  options : List CmOption
deriving DecidableEq, Repr

/-- `fallbackHandler` (cm_engine.ts 515-520): match `/\w*/` before the
cursor; decline when the match is zero-length and the request was not
explicit; otherwise return the given options verbatim from the match
start. -/
def fallbackHandler (text : List Char) (cursorOffset : Int) (explicit : Bool)
    (options : List CmOption) : Option CmResult :=
  match matchBeforeWordStar text cursorOffset with
  | some word =>
      if word.mfrom = word.mto ∧ explicit = false then none
      else some ⟨word.mfrom, options⟩
  | none => none

/-- C2 (amended).  The fallback handler's word match is always the
zero-length match at the clamped cursor (the exec loop's final empty match
supersedes any earlier word match in the keep-last retention), so the
handler declines exactly when the request was not explicit, and otherwise
returns the given documentation completion list unfiltered with `from`
equal to the clamped cursor offset. -/
theorem fallbackHandler_spec (text : List Char) (cursorOffset : Int)
    (options : List CmOption) :
    fallbackHandler text cursorOffset false options = none ∧
    fallbackHandler text cursorOffset true options
      = some ⟨clampOffset cursorOffset text.length, options⟩ := by
  unfold fallbackHandler
  rw [matchBeforeWordStar_eq]
  refine ⟨by simp, by simp⟩

/-- The claim's "word-prefix token ending at the cursor", stated from the
spec's words: the maximal run of word characters immediately before the
(clamped) cursor. -/
def claimWordToken (text : List Char) (cursorOffset : Int) : List Char :=
  ((text.take (clampOffset cursorOffset text.length)).reverse.takeWhile
      isWordChar).reverse

/-- Counterexample to C2 as stated: in text `ab` with the cursor at
offset 2, the word-prefix token ending at the cursor is `ab`
(length 2 ≠ 0), so by the claim a non-explicit request should still get a
completion list — but the handler declines; and even an explicit request
gets the list unfiltered with `from` at the cursor (2), not at the start
of the word (0) filtered by the prefix `ab`. -/
theorem fallbackHandler_counterexample :
    claimWordToken ("ab".toList) 2 = "ab".toList ∧
    ("ab".toList).length ≠ 0 ∧
    fallbackHandler ("ab".toList) 2 false [⟨"zoom".toList, none, none, none⟩] = none ∧
    fallbackHandler ("ab".toList) 2 true [⟨"zoom".toList, none, none, none⟩]
      = some ⟨2, [⟨"zoom".toList, none, none, none⟩]⟩ := by
  refine ⟨by decide, by decide, by decide, by decide⟩

/-! ## Offset/position converter (server.ts 59-69 and 410-417) -/

/-- `text.split(/\r?\n/)`: split on newlines, treating a carriage return
immediately before a newline as part of the separator; a lone carriage
return is ordinary content. -/
def splitLinesJS : List Char → List (List Char)
  | [] => [[]]
  | '\n' :: tl => [] :: splitLinesJS tl
  | '\r' :: '\n' :: tl => [] :: splitLinesJS tl
  | c :: tl =>
      match splitLinesJS tl with
      | [] => [[c]]
      | l :: ls => (c :: l) :: ls

/-- `positionToOffset` (server.ts 59-69): sum `(lines[i] || "").length + 1`
for each line before the position, then add the character. -/
def positionToOffset (text : List Char) (line character : Nat) : Nat :=
  (List.range line).foldl
    (fun acc i => acc + ((splitLinesJS text).getD i []).length + 1) 0 + character

/-- `offsetToPosition` (server.ts 410-417): clamp, split the prefix before
the offset, and report (number of parts - 1, length of the last part). -/
def offsetToPosition (text : List Char) (offset : Int) : Nat × Nat :=
  let clamped := clampOffset offset text.length
  let parts := splitLinesJS (text.take clamped)
  (parts.length - 1, (parts.getLastD []).length)

/-- C5 fails on CRLF texts: in `a\r\nb` the offset 3 (the `b`) maps to
position (1, 0), but `positionToOffset` charges only one unit for the
two-character `\r\n` separator and answers 2, not 3. -/
theorem positionOffset_roundtrip_failure :
    offsetToPosition ("a\r\nb".toList) 3 = (1, 0) ∧
    positionToOffset ("a\r\nb".toList) 1 0 = 2 ∧
    (2 : Nat) ≠ 3 :=
  ⟨by decide, by decide, by decide⟩

/-! ## String-literal quote rewriter (server.ts 133-168) -/

/-- The three JS quote kinds (`QuoteChar` in server.ts 81). -/
inductive QuoteKind where
  | single
  | double
  | block
deriving DecidableEq, Repr

/-- The delimiter character of a quote kind. -/
def quoteCharOf : QuoteKind → Char
  | .single => squote
  | .double => dquote
  | .block => btick

/-- `out.replace(/\\X/g, "X")` for a quote character X: drop the backslash
of every (non-overlapping, left-to-right) backslash-X pair. -/
def unescapeChar (q : Char) : List Char → List Char
  | [] => []
  | [c] => [c]
  | '\\' :: c :: tl =>
      if c = q then c :: unescapeChar q tl
      else '\\' :: unescapeChar q (c :: tl)
  | c :: tl => c :: unescapeChar q tl

/-- `out.replace(/\\/g, "\\\\")`: double every backslash. -/
def escapeBackslashes (l : List Char) : List Char :=
  l.flatMap fun c => if c = '\\' then ['\\', '\\'] else [c]

/-- `out.replace(/X/g, "\\X")` for a delimiter X. -/
def escapeChar (q : Char) (l : List Char) : List Char :=
  l.flatMap fun c => if c = q then ['\\', q] else [c]

/-- `out.replace(/\$\x7b/g, ...)`: backslash-escape every interpolation
start `$` + left-brace. -/
def escapeInterp : List Char → List Char
  | [] => []
  | [c] => [c]
  | '$' :: c :: tl =>
      if c = lbrace then '\\' :: '$' :: c :: escapeInterp tl
      else '$' :: escapeInterp (c :: tl)
  | c :: tl => c :: escapeInterp tl

/-- `rewriteLiteralContent` (server.ts 133-168): normalize escapes of the
source delimiter when leaving that kind, then per target kind re-escape
backslashes and the target delimiter, escape interpolation starts for
block targets, and reject embedded newlines for single/double targets. -/
def rewriteLiteralContent (content : List Char) (src tgt : QuoteKind) :
    Option (List Char) :=
  let out1 := if src = .single ∧ tgt ≠ .single then unescapeChar squote content else content
  let out2 := if src = .double ∧ tgt ≠ .double then unescapeChar dquote out1 else out1
  let out3 := if src = .block ∧ tgt ≠ .block then unescapeChar btick out2 else out2
  match tgt with
  | .double =>
      let o := escapeChar dquote (escapeBackslashes out3)
      if o.contains '\n' then none else some o
  | .block => some (escapeInterp (escapeChar btick (escapeBackslashes out3)))
  | .single =>
      let o := escapeChar squote (escapeBackslashes out3)
      if o.contains '\n' then none else some o

/-- Modelled from the spec (§4.6): the rewriter first un-escapes the quote
character no longer meaningful in the target kind, then re-escapes
backslashes and the target delimiter; block-quote targets additionally
escape interpolation-start sequences; single/double-quote targets reject
content containing a raw newline. -/
def rewriteLiteralContentSpec (content : List Char) (src tgt : QuoteKind) :
    Option (List Char) :=
  let unescaped := if src ≠ tgt then unescapeChar (quoteCharOf src) content else content
  let escaped := escapeChar (quoteCharOf tgt) (escapeBackslashes unescaped)
  match tgt with
  | .block => some (escapeInterp escaped)
  | _ => if escaped.contains '\n' then none else some escaped

/-- C7. Converting the content of `'it\'s'` from single to double quotes
un-escapes the quote and does not double-escape, yielding `it's`; and in
general `rewriteLiteralContent` agrees with the spec's description
(un-escape the no-longer-meaningful quote, then re-escape backslashes and
the target delimiter, escape interpolation starts for block targets,
reject raw newlines for single/double targets). -/
theorem rewriteLiteralContent_correct :
    rewriteLiteralContent ['i', 't', '\\', squote, 's'] .single .double
      = some ['i', 't', squote, 's'] ∧
    ∀ (content : List Char) (src tgt : QuoteKind),
      rewriteLiteralContent content src tgt
        = rewriteLiteralContentSpec content src tgt := by
  refine ⟨by decide, ?_⟩
  intro content src tgt
  cases src <;> cases tgt <;> rfl

/-! ## Debounced validation (server.ts 327-372) -/

/-- A published diagnostic position. -/
structure DiagPos where
  line : Nat
  character : Nat
deriving DecidableEq, Repr

/-- A published diagnostic (severity 1 = Error). -/
structure Diagnostic where
  severity : Nat
  message : List Char
  startPos : DiagPos
  endPos : DiagPos
  source : List Char
deriving DecidableEq, Repr

/-- The fields of a thrown parse error that `syntaxDiagnosticsFromError`
(server.ts 300-325) inspects: the message (`none` when absent or not a
string) and `loc.line` / `loc.column` (`none` when absent or not
numbers).  The external parser (acorn) produces the error object. -/
structure ParseErr where
  message : Option (List Char)
  locLine : Option Int
  locCol : Option Int
deriving DecidableEq, Repr

/-- `syntaxDiagnosticsFromError` (server.ts 300-325). -/
def syntaxDiagnosticsFromError (e : ParseErr) : Option (List Diagnostic) :=
  match e.message with
  | none => none
  | some msg =>
      if msg = [] then none
      else
        match e.locLine, e.locCol with
        | some line, some col =>
            let l := (max 0 (line - 1)).toNat
            let c := (max 0 col).toNat
            some [⟨1, msg, ⟨l, c⟩, ⟨l, c⟩, "strudel".toList⟩]
        | _, _ => none

/-- `validateDocument` (server.ts 345-372) as a pure function of the
version recorded from the document at entry, the last-known version map
entry for the URI, and the outcome of the external `parse` call
(`none` = parsed fine, `some e` = thrown error).  The result is what gets
published for the URI (`none` = nothing published). -/
def validateDocumentModel (version : Int) (lastKnown : Option Int)
    (parseError : Option ParseErr) : Option (List Diagnostic) :=
  match parseError with
  | none => if lastKnown ≠ some version then none else some []
  | some e =>
      if lastKnown ≠ some version then none
      else
        match syntaxDiagnosticsFromError e with
        | some diags => some diags
        | none => some []

/-- C8. A validation that recorded version `N` publishes nothing — neither
an error diagnostic nor a clearing empty set — whenever the last-known
version for the URI is anything other than `N`, regardless of the parse
outcome. -/
theorem staleValidation_silent (version : Int) (lastKnown : Option Int)
    (parseError : Option ParseErr) (h : lastKnown ≠ some version) :
    validateDocumentModel version lastKnown parseError = none := by
  unfold validateDocumentModel
  cases parseError <;> simp [h]

/-- Witness for C8: version 1 recorded, document since at version 2. -/
theorem staleValidation_silent_witness :
    (some (2 : Int) ≠ some (1 : Int)) ∧
    validateDocumentModel 1 (some 2) none = none :=
  ⟨by decide, staleValidation_silent 1 (some 2) none (by decide)⟩

/-! ## Sample-map notification (server.ts 190-217 and 374-390) -/

/-- A JSON-ish JS value, as far as the notification handler inspects it. -/
inductive JVal where
  | jnull
  | jbool (b : Bool)
  | jnum (n : Int)
  | jstr (s : List Char)
  | jarr (elems : List JVal)
  | jobj (fields : List (List Char × JVal))
deriving Repr

/-- JS truthiness of a `JVal` (`!payload`). -/
def jsTruthy : JVal → Bool
  | .jnull => false
  | .jbool b => b
  | .jnum n => n ≠ 0
  | .jstr s => s ≠ []
  | .jarr _ => true
  | .jobj _ => true

/-- `typeof payload === "object"` (true for null, arrays and objects). -/
def jsTypeofObject : JVal → Bool
  | .jnull => true
  | .jarr _ => true
  | .jobj _ => true
  | _ => false

/-- Property access `payload.key` (arrays have no such named property). -/
def getField : JVal → List Char → Option JVal
  | .jobj fields, key => (fields.find? (fun kv => kv.1 == key)).map (·.2)
  | _, _ => none

/-- Lexicographic UTF-16 comparison of JS strings (`<`), the order of the
default `Array.prototype.sort()` comparator. -/
def lexLt : List Char → List Char → Bool
  | [], [] => false
  | [], _ :: _ => true
  | _ :: _, [] => false
  | a :: as, b :: bs =>
      if a.toNat < b.toNat then true
      else if b.toNat < a.toNat then false
      else lexLt as bs

/-- Insert into a sorted list, keeping earlier-inserted equals first. -/
def insertSortedJS (x : List Char) : List (List Char) → List (List Char)
  | [] => [x]
  | y :: tl => if lexLt y x then y :: insertSortedJS x tl else x :: y :: tl

/-- `Array.prototype.sort()` with the default comparator, as a stable
insertion sort. -/
def sortJS (l : List (List Char)) : List (List Char) :=
  l.foldr insertSortedJS []

/-- Keep-first deduplication (JS `Set` iteration order). -/
def dedupFirstAux (seen : List (List Char)) : List (List Char) → List (List Char)
  | [] => []
  | x :: tl =>
      if seen.contains x then dedupFirstAux seen tl
      else x :: dedupFirstAux (x :: seen) tl

/-- `deriveBanksFromSounds` (server.ts 192-199): destructure
`key.split("_")` as `[bank, suffix]`, collect `bank` whenever both parts
are nonempty, dedupe and sort. -/
def deriveBanksFromSounds (soundNames : List (List Char)) : List (List Char) :=
  let collected := soundNames.foldl (fun acc key =>
    let parts := key.splitOn '_'
    match parts.get? 0, parts.get? 1 with
    | some bank, some suffix =>
        if suffix ≠ [] ∧ bank ≠ [] then acc ++ [bank] else acc
    | _, _ => acc) []
  sortJS (dedupFirstAux [] collected)

/-- The in-memory sample index (server.ts 190). -/
structure SampleIndex where
  soundNames : List (List Char)
  banks : List (List Char)
deriving DecidableEq, Repr

/-- The `strudel/samples` notification handler (server.ts 374-390): bail
out on non-object payloads; otherwise filter the nonempty strings out of
`payload.soundNames` (empty when absent or not an array), sort them, and
replace the whole index. -/
def onSamplesNotification (payload : JVal) (current : SampleIndex) : SampleIndex :=
  if ¬ (jsTruthy payload ∧ jsTypeofObject payload) then current
  else
    let soundNames :=
      match getField payload ("soundNames".toList) with
      | some (.jarr xs) =>
          xs.filterMap fun v =>
            match v with
            | .jstr s => if s ≠ [] then some s else none
            | _ => none
      | _ => []
    let sorted := sortJS soundNames
    ⟨sorted, deriveBanksFromSounds sorted⟩

/-- Is an optional value a JS array? -/
def isJArr : Option JVal → Bool
  | some (.jarr _) => true
  | _ => false

/-- Counterexample to C9 as stated: the object payload `{}` carries no
`soundNames` string array, so by the claim the index should be left
unchanged — but the handler resets it to the empty index. -/
theorem samplesNotification_counterexample :
    onSamplesNotification (.jobj []) ⟨["bd".toList], ["x".toList]⟩ = ⟨[], []⟩ ∧
    (⟨[], []⟩ : SampleIndex) ≠ ⟨["bd".toList], ["x".toList]⟩ :=
  ⟨by decide, by decide⟩

/-- C9 (amended). Payloads that are not truthy objects are ignored (the
index is unchanged and nothing fatal happens); array payloads and object
payloads without a `soundNames` array are not ignored: they replace the
index with the empty one (the handler always rebuilds the index wholesale
from whatever nonempty strings it finds). -/
theorem samplesNotification_spec :
    (∀ idx, onSamplesNotification .jnull idx = idx) ∧
    (∀ b idx, onSamplesNotification (.jbool b) idx = idx) ∧
    (∀ n idx, onSamplesNotification (.jnum n) idx = idx) ∧
    (∀ s idx, onSamplesNotification (.jstr s) idx = idx) ∧
    (∀ xs idx, onSamplesNotification (.jarr xs) idx = (⟨[], []⟩ : SampleIndex)) ∧
    (∀ fields idx,
      isJArr (getField (.jobj fields) ("soundNames".toList)) = false →
      onSamplesNotification (.jobj fields) idx = (⟨[], []⟩ : SampleIndex)) := by
  refine ⟨fun idx => rfl, ?_, ?_, ?_, fun xs idx => rfl, ?_⟩
  · intro b idx
    cases b <;> rfl
  · intro n idx
    unfold onSamplesNotification
    simp [jsTruthy, jsTypeofObject]
  · intro s idx
    unfold onSamplesNotification
    simp [jsTruthy, jsTypeofObject]
  · intro fields idx h
    unfold onSamplesNotification
    cases hg : getField (.jobj fields) ("soundNames".toList) with
    | none => simp [hg, jsTruthy, jsTypeofObject, sortJS, deriveBanksFromSounds, dedupFirstAux]
    | some v =>
        cases v with
        | jarr xs => rw [hg] at h; simp [isJArr] at h
        | jnull => simp [hg, jsTruthy, jsTypeofObject, sortJS, deriveBanksFromSounds, dedupFirstAux]
        | jbool b => simp [hg, jsTruthy, jsTypeofObject, sortJS, deriveBanksFromSounds, dedupFirstAux]
        | jnum n => simp [hg, jsTruthy, jsTypeofObject, sortJS, deriveBanksFromSounds, dedupFirstAux]
        | jstr s => simp [hg, jsTruthy, jsTypeofObject, sortJS, deriveBanksFromSounds, dedupFirstAux]
        | jobj f2 => simp [hg, jsTruthy, jsTypeofObject, sortJS, deriveBanksFromSounds, dedupFirstAux]

/-- Witness for C9 (amended): an object payload whose `soundNames` is a
number resets a non-empty index to the empty one. -/
theorem samplesNotification_spec_witness :
    isJArr (getField (.jobj [("soundNames".toList, .jnum 3)]) ("soundNames".toList)) = false ∧
    onSamplesNotification (.jobj [("soundNames".toList, .jnum 3)])
      ⟨["bd".toList], []⟩ = (⟨[], []⟩ : SampleIndex) :=
  ⟨by decide,
   samplesNotification_spec.2.2.2.2.2 [("soundNames".toList, .jnum 3)]
     ⟨["bd".toList], []⟩ (by decide)⟩

/-! ## The end-anchored call-site regexes (cm_engine.ts 222-316) -/

/-- JS `\s`: the ECMAScript whitespace and line-terminator classes. -/
def isSpaceJS (c : Char) : Bool :=
  c = ' ' || c = '\t' || c = '\n' || c = '\r' ||
  c = Char.ofNat 11 || c = Char.ofNat 12 || c = Char.ofNat 0xa0 ||
  c = Char.ofNat 0x1680 || (Char.ofNat 0x2000 ≤ c && c ≤ Char.ofNat 0x200a) ||
  c = Char.ofNat 0x2028 || c = Char.ofNat 0x2029 || c = Char.ofNat 0x202f ||
  c = Char.ofNat 0x205f || c = Char.ofNat 0x3000 || c = Char.ofNat 0xfeff

/-- A single or double quote (the `['"]` / `[^'"]` classes). -/
def isQuoteSD (c : Char) : Bool := c = squote || c = dquote

/-- Strip an exact prefix: `some rest` when `s = pre ++ rest`. -/
def dropPre : List Char → List Char → Option (List Char)
  | [], s => some s
  | _ :: _, [] => none
  | p :: ps, c :: cs => if c = p then dropPre ps cs else none

/-- `name\(\s*$` (the `..._NO_QUOTES_REGEX` family): the call opener
followed only by whitespace, ending at the cursor. -/
def matchNoQuotesAt (name : List Char) (s : List Char) : Bool :=
  match dropPre (name ++ ['(']) s with
  | some rest => rest.all isSpaceJS
  | none => false

/-- `name\(\s*['"][^'"]*$` (the `..._WITH_QUOTES_REGEX` family): opener,
whitespace, an opening quote, then a quote-free remainder up to the
cursor.  The greedy `\s*` is deterministic because no quote is
whitespace. -/
def matchWithQuotesAt (name : List Char) (s : List Char) : Bool :=
  match dropPre (name ++ ['(']) s with
  | some rest =>
      match rest.dropWhile isSpaceJS with
      | [] => false
      | q :: tl => isQuoteSD q && tl.all (fun c => !isQuoteSD c)
  | none => false

/-- `name\(\s*['"][^'"]*:[^'"]*$` (the `..._AFTER_COLON_REGEX` family):
as `matchWithQuotesAt` with at least one colon after the quote. -/
def matchAfterColonAt (name : List Char) (s : List Char) : Bool :=
  match dropPre (name ++ ['(']) s with
  | some rest =>
      match rest.dropWhile isSpaceJS with
      | [] => false
      | q :: tl => isQuoteSD q && tl.all (fun c => !isQuoteSD c) && tl.contains ':'
  | none => false

/-- Index of the leftmost suffix of `s` satisfying `p` (the match `exec`
finds first for an end-anchored pattern). -/
def firstSuffixMatch (p : List Char → Bool) : List Char → Option Nat
  | [] => if p [] then some 0 else none
  | c :: tl =>
      if p (c :: tl) then some 0
      else (firstSuffixMatch p tl).map (· + 1)

/-- A `matchBefore` result including the matched text. -/
structure AnchoredMatch where
  mfrom : Nat
  mto : Nat
  mtext : List Char
deriving DecidableEq, Repr

/-- `matchBefore(re)` for an end-anchored regex (every match ends at the
window end because of the trailing `$`) that cannot match the empty
string: `exec` finds the leftmost such match, its end is the window end,
and the iteration stops there, so the retention loop keeps exactly this
leftmost suffix match. -/
def matchBeforeAnchored (p : List Char → Bool) (text : List Char)
    (cursorOffset : Int) : Option AnchoredMatch :=
  (firstSuffixMatch p (windowOf text cursorOffset).2).map fun i =>
    ⟨(windowOf text cursorOffset).1 + i,
     (windowOf text cursorOffset).1 + (windowOf text cursorOffset).2.length,
     (windowOf text cursorOffset).2.drop i⟩

/-- `s.lastIndexOf(c)` as an `Option Nat` (`none` = JS `-1`). -/
def lastIndexOfCh (c : Char) : List Char → Option Nat
  | [] => none
  | a :: tl =>
      match lastIndexOfCh c tl with
      | some i => some (i + 1)
      | none => if a = c then some 0 else none

/-- `Math.max(text.lastIndexOf('"'), text.lastIndexOf('\x27'))` with `-1`
mapped to `none`. -/
def maxQuoteIdx (s : List Char) : Option Nat :=
  match lastIndexOfCh dquote s, lastIndexOfCh squote s with
  | some i, some j => some (max i j)
  | some i, none => some i
  | none, some j => some j
  | none, none => none

/-- The fragment-delimiter class `[\s[\x7b(<]` of the
`..._FRAGMENT_MATCH_REGEX` family. -/
def isOpenDelim (c : Char) : Bool :=
  isSpaceJS c || c = '[' || c = lbrace || c = '(' || c = '<'

/-- `.match` of `(?:[DELIM])([FRAG]*)$`: the leftmost delimiter position
from which only fragment characters reach the end; returns the captured
group (the characters after the delimiter), or `none` when the pattern
does not match. -/
def fragAfterDelim (isDelim isFragChar : Char → Bool) : List Char → Option (List Char)
  | [] => none
  | c :: tl =>
      if isDelim c && tl.all isFragChar then some tl
      else fragAfterDelim isDelim isFragChar tl

/-- `extractSoundFragment` (cm_engine.ts 318-322): the word after the last
delimiter, or the whole inside text when the pattern has no match. -/
def extractSoundFragment (inside : List Char) : List Char :=
  match fragAfterDelim isOpenDelim isWordChar inside with
  | some f => f
  | none => inside

/-! ## Vocabulary constants (cm_engine.ts 229-265) -/

/-- The pitch-name vocabulary (cm_engine.ts 229-251). -/
def pitchNames : List (List Char) :=
  ["C", "C#", "Db", "D", "D#", "Eb", "E", "E#", "Fb", "F", "F#", "Gb",
   "G", "G#", "Ab", "A", "A#", "Bb", "B", "B#", "Cb"].map String.toList

/-- `[...pitchNames].sort((a, b) => b.length - a.length)` (cm_engine.ts
253-255): a stable sort by descending length, i.e. the two-character
spellings in their original order followed by the one-character ones. -/
def pitchNamesLongestFirst : List (List Char) :=
  ["C#", "Db", "D#", "Eb", "E#", "Fb", "F#", "Gb", "G#", "Ab", "A#",
   "Bb", "B#", "Cb", "C", "D", "E", "F", "G", "A", "B"].map String.toList

/-- `scaleCompletions` (cm_engine.ts 258): upstream leaves it empty. -/
def scaleCompletions : List CmOption := []

/-- `modeCompletions` (cm_engine.ts 260-265). -/
def modeCompletions : List CmOption :=
  [⟨"below".toList, some ("mode".toList), none, none⟩,
   ⟨"above".toList, some ("mode".toList), none, none⟩,
   ⟨"duck".toList, some ("mode".toList), none, none⟩,
   ⟨"root".toList, some ("mode".toList), none, none⟩]

/-- ASCII `toLowerCase()` (all vocabulary compared here is ASCII). -/
def lowerChar (c : Char) : Char :=
  if 'A' ≤ c ∧ c ≤ 'Z' then Char.ofNat (c.toNat + 32) else c

/-- `toLowerCase()` over a string. -/
def lowerStr (s : List Char) : List Char := s.map lowerChar

/-- `hay.includes(needle)`: substring containment anywhere. -/
def includesJS (hay needle : List Char) : Bool :=
  go hay
where go : List Char → Bool
  | [] => needle.isPrefixOf []
  | c :: tl => needle.isPrefixOf (c :: tl) || go tl

/-! ## Handlers (cm_engine.ts 324-513) -/

/-- `soundHandler` (cm_engine.ts 324-349), with the live
`sources.soundNames` supplied as a parameter. -/
def soundHandler (text : List Char) (cursorOffset : Int)
    (soundNames : List (List Char)) : Option CmResult :=
  match matchBeforeAnchored
      (fun s => matchNoQuotesAt ['s'] s || matchNoQuotesAt ("sound".toList) s)
      text cursorOffset with
  | some m => some ⟨m.mto, []⟩
  | none =>
    match matchBeforeAnchored
        (fun s => matchWithQuotesAt ['s'] s || matchWithQuotesAt ("sound".toList) s)
        text cursorOffset with
    | none => none
    | some m =>
        match maxQuoteIdx m.mtext with
        | none => none
        | some quoteIdx =>
            let inside := m.mtext.drop (quoteIdx + 1)
            let fragment := extractSoundFragment inside
            let sorted := sortJS soundNames
            let filtered := sorted.filter (fun n => includesJS n fragment)
            some ⟨m.mto - fragment.length,
                  filtered.map (fun l => ⟨l, some ("sound".toList), none, none⟩)⟩

/-- `bankHandler` (cm_engine.ts 351-375), with the live
`sources.bankNames` supplied as a parameter. -/
def bankHandler (text : List Char) (cursorOffset : Int)
    (bankNames : List (List Char)) : Option CmResult :=
  match matchBeforeAnchored (matchNoQuotesAt ("bank".toList)) text cursorOffset with
  | some m => some ⟨m.mto, []⟩
  | none =>
    match matchBeforeAnchored (matchWithQuotesAt ("bank".toList)) text cursorOffset with
    | none => none
    | some m =>
        match maxQuoteIdx m.mtext with
        | none => none
        | some quoteIdx =>
            let fragment := m.mtext.drop (quoteIdx + 1)
            let sorted := sortJS bankNames
            let filtered := sorted.filter (fun b => fragment.isPrefixOf b)
            some ⟨m.mto - fragment.length,
                  filtered.map (fun l => ⟨l, some ("bank".toList), none, none⟩)⟩

/-- The chord fragment class `[\w#b+^:-]`. -/
def chordFragChar (c : Char) : Bool :=
  isWordChar c || c = '#' || c = '+' || c = '^' || c = ':' || c = '-'

/-- `getChordSymbolCompletions` (cm_engine.ts 267-288), with the keys of
the external `complex` chord table supplied as a parameter: sort `""`
together with the keys; the empty symbol displays as `major` and applies
the empty string. -/
def getChordSymbolCompletions (complexKeys : List (List Char)) : List CmOption :=
  (sortJS ([] :: complexKeys)).map fun symbol =>
    if symbol = [] then ⟨"major".toList, some ("chord-symbol".toList), some [], none⟩
    else ⟨symbol, some ("chord-symbol".toList), some symbol, none⟩

/-- `chordHandler` (cm_engine.ts 377-435), with the awaited chord-symbol
completion list supplied as a parameter (the lazy import is memoized, so
every call sees the same list). -/
def chordHandler (text : List Char) (cursorOffset : Int)
    (chordSymbolCompletions : List CmOption) : Option CmResult :=
  match matchBeforeAnchored (matchNoQuotesAt ("chord".toList)) text cursorOffset with
  | some m => some ⟨m.mto, []⟩
  | none =>
    match matchBeforeAnchored (matchWithQuotesAt ("chord".toList)) text cursorOffset with
    | none => none
    | some m =>
        match maxQuoteIdx m.mtext with
        | none => none
        | some quoteIdx =>
            let inside := m.mtext.drop (quoteIdx + 1)
            let fragment :=
              match fragAfterDelim isOpenDelim chordFragChar inside with
              | some f => f
              | none => inside
            match pitchNamesLongestFirst.find? (fun pitch =>
                (lowerStr pitch).isPrefixOf (lowerStr fragment)) with
            | none =>
                let filtered := chordSymbolCompletions.filter (fun s =>
                  (lowerStr fragment).isPrefixOf (lowerStr s.label))
                some ⟨m.mto - fragment.length, filtered⟩
            | some root =>
                let symbolFragment := fragment.drop root.length
                let filtered := chordSymbolCompletions.filter (fun s =>
                  (lowerStr symbolFragment).isPrefixOf (lowerStr s.label))
                let rootPart := fragment.take root.length
                let options := filtered.map (fun s =>
                  let symbol := match s.apply with
                                | some a => a
                                | none => s.label
                  let chordText := if symbol = [] then rootPart else rootPart ++ symbol
                  (⟨rootPart ++ s.label, s.type, some chordText, some chordText⟩ : CmOption))
                some ⟨m.mto - fragment.length, options⟩

/-- `[A-Ga-g]` of SCALE_PITCH_MATCH_REGEX. -/
def isPitchLetter (c : Char) : Bool :=
  ('A' ≤ c && c ≤ 'G') || ('a' ≤ c && c ≤ 'g')

/-- `[#b]` of SCALE_PITCH_MATCH_REGEX. -/
def isSharpFlat (c : Char) : Bool := c = '#' || c = 'b'

/-- `text.match(/([A-Ga-g][#b]*)?$/)[0]`: the leftmost position from
which a pitch letter followed only by accidentals reaches the end of the
text; the empty match at the very end otherwise. -/
def scalePitchFragment : List Char → List Char
  | [] => []
  | c :: tl =>
      if isPitchLetter c && tl.all isSharpFlat then c :: tl
      else scalePitchFragment tl

/-- `label.replace(/\s+/g, ":")` (SCALE_SPACES_TO_COLON_REGEX): each
maximal whitespace run becomes one colon. -/
def spacesToColon : List Char → List Char
  | [] => []
  | c :: tl =>
      if isSpaceJS c then ':' :: spacesToColon (tl.dropWhile (fun d => isSpaceJS d))
      else c :: spacesToColon tl
termination_by l => l.length
decreasing_by
  · have := (List.dropWhile_sublist (l := tl) (fun d => isSpaceJS d)).length_le
    simp only [List.length_cons]
    omega
  · simp only [List.length_cons]
    omega

/-- `scaleHandler` (cm_engine.ts 437-478). -/
def scaleHandler (text : List Char) (cursorOffset : Int) (explicit : Bool) :
    Option CmResult :=
  match matchBeforeAnchored (matchNoQuotesAt ("scale".toList)) text cursorOffset with
  | some m => some ⟨m.mto, []⟩
  | none =>
    let afterColon : Option CmResult :=
      match matchBeforeAnchored (matchAfterColonAt ("scale".toList)) text cursorOffset with
      | some m =>
          match lastIndexOfCh ':' m.mtext with
          | some colonIdx =>
              let fragment := m.mtext.drop (colonIdx + 1)
              let filteredScales := scaleCompletions.filter (fun s =>
                fragment.isPrefixOf s.label)
              let options := filteredScales.map (fun s =>
                { s with apply := some (spacesToColon s.label) })
              some ⟨m.mfrom + colonIdx + 1, options⟩
          | none => none
      | none => none
    match afterColon with
    | some r => some r
    | none =>
        match matchBeforeAnchored (matchWithQuotesAt ("scale".toList)) text cursorOffset with
        | none => none
        | some m =>
            if m.mtext.contains ':' then none
            else if explicit then
              let fragment := scalePitchFragment m.mtext
              let filtered := pitchNames.filter (fun p =>
                (lowerStr fragment).isPrefixOf (lowerStr p))
              some ⟨m.mto - fragment.length,
                    filtered.map (fun p => ⟨p, some ("pitch".toList), none, none⟩)⟩
            else some ⟨m.mto, []⟩

/-- The mode fragment class `[\w:]`. -/
def modeFragChar (c : Char) : Bool := isWordChar c || c = ':'

/-- `modeHandler` (cm_engine.ts 480-513).  Note it never consults
`context.explicit`. -/
def modeHandler (text : List Char) (cursorOffset : Int) : Option CmResult :=
  match matchBeforeAnchored (matchNoQuotesAt ("mode".toList)) text cursorOffset with
  | some m => some ⟨m.mto, []⟩
  | none =>
    let afterColon : Option CmResult :=
      match matchBeforeAnchored (matchAfterColonAt ("mode".toList)) text cursorOffset with
      | some m =>
          match lastIndexOfCh ':' m.mtext with
          | some colonIdx =>
              let fragment := m.mtext.drop (colonIdx + 1)
              let filtered := pitchNames.filter (fun p =>
                (lowerStr fragment).isPrefixOf (lowerStr p))
              some ⟨m.mfrom + colonIdx + 1,
                    filtered.map (fun p => ⟨p, some ("pitch".toList), none, none⟩)⟩
          | none => none
      | none => none
    match afterColon with
    | some r => some r
    | none =>
        match matchBeforeAnchored (matchWithQuotesAt ("mode".toList)) text cursorOffset with
        | none => none
        | some m =>
            match maxQuoteIdx m.mtext with
            | none => none
            | some quoteIdx =>
                let inside := m.mtext.drop (quoteIdx + 1)
                let fragment :=
                  match fragAfterDelim isOpenDelim modeFragChar inside with
                  | some f => f
                  | none => inside
                let filteredModes := modeCompletions.filter (fun mo =>
                  fragment.isPrefixOf mo.label)
                some ⟨m.mto - fragment.length, filteredModes⟩

/-- `complete` (cm_engine.ts 549-590): the fixed handler chain in source
order; inside a string the fallback handler is omitted. -/
def complete (text : List Char) (cursorOffset : Int) (explicit : Bool)
    (jsdocCompletions : List CmOption)
    (soundNames bankNames : List (List Char))
    (chordSymbolCompletions : List CmOption) : Option CmResult :=
  let inString := isInsideString text cursorOffset
  let base :=
    (soundHandler text cursorOffset soundNames).orElse fun _ =>
      (bankHandler text cursorOffset bankNames).orElse fun _ =>
        (chordHandler text cursorOffset chordSymbolCompletions).orElse fun _ =>
          (scaleHandler text cursorOffset explicit).orElse fun _ =>
            modeHandler text cursorOffset
  if inString then base
  else base.orElse fun _ => fallbackHandler text cursorOffset explicit jsdocCompletions

/-! ## Lemmas about the anchored matcher on `name("fragment` texts -/

/-- A character that cannot disturb any of the call-site regexes: not a
quote, not whitespace, not an opening delimiter, not a parenthesis, not a
colon. -/
def plainFragChar (c : Char) : Bool :=
  !isQuoteSD c && !isSpaceJS c && !(c = '(') && !(c = '[') &&
    !(c = lbrace) && !(c = '<') && !(c = ':')

lemma all_mono {P Q : Char → Bool} (h : ∀ c, P c = true → Q c = true)
    {s : List Char} (hs : s.all P = true) : s.all Q = true := by
  rw [List.all_eq_true] at hs ⊢
  exact fun x hx => h x (hs x hx)

lemma dropPre_eq : ∀ {p s r : List Char}, dropPre p s = some r → s = p ++ r := by
  intro p
  induction p with
  | nil =>
      intro s r h
      simp only [dropPre, Option.some_inj] at h
      simp [h]
  | cons a ps ih =>
      intro s r h
      cases s with
      | nil => simp [dropPre] at h
      | cons c cs =>
          simp only [dropPre] at h
          by_cases hca : c = a
          · rw [if_pos hca] at h
            subst hca
            rw [List.cons_append, ih h]
          · rw [if_neg hca] at h
            exact absurd h (by simp)

lemma dropPre_self : ∀ (p r : List Char), dropPre p (p ++ r) = some r := by
  intro p
  induction p with
  | nil => intro r; rfl
  | cons a ps ih => intro r; simp [dropPre, ih]

lemma getLast?_of_all {P : Char → Bool} {s : List Char} (hs : s.all P = true)
    {x : Char} (hx : s.getLast? = some x) : P x = true := by
  obtain ⟨ys, rfl⟩ := List.getLast?_eq_some_iff.mp hx
  exact (List.all_eq_true.mp hs) x (List.mem_append_right _ (by simp))

/-- Any successful `name\(\s*$` match ends in `(` or whitespace. -/
lemma matchNoQuotesAt_ends (name : List Char) :
    ∀ t, matchNoQuotesAt name t = true →
      ∃ x, t.getLast? = some x ∧ (x = '(' || isSpaceJS x) = true := by
  intro t h
  unfold matchNoQuotesAt at h
  cases hd : dropPre (name ++ ['(']) t with
  | none => rw [hd] at h; exact absurd h (by simp)
  | some rest =>
      rw [hd] at h
      have hall : rest.all isSpaceJS = true := h
      have ht := dropPre_eq hd
      subst ht
      cases rest with
      | nil =>
          refine ⟨'(', ?_, by simp⟩
          rw [List.append_nil, List.getLast?_concat]
      | cons b u =>
          have hsome : ∃ y, (b :: u).getLast? = some y := by
            cases hg : (b :: u).getLast? with
            | none => exact absurd (List.getLast?_eq_none_iff.mp hg) (by simp)
            | some y => exact ⟨y, rfl⟩
          obtain ⟨y, hy⟩ := hsome
          refine ⟨y, ?_, ?_⟩
          · rw [List.getLast?_append, hy]; rfl
          · have := getLast?_of_all hall hy
            simp [this]

lemma firstSuffixMatch_of_head {p : List Char → Bool} {s : List Char}
    (h : p s = true) : firstSuffixMatch p s = some 0 := by
  cases s <;> simp [firstSuffixMatch, h]

lemma firstSuffixMatch_none_of_lastChar {p : List Char → Bool} {bad : Char → Bool}
    (hp : ∀ t, p t = true → ∃ x, t.getLast? = some x ∧ bad x = true) :
    ∀ (s : List Char) (c : Char), s.getLast? = some c → bad c = false →
      firstSuffixMatch p s = none := by
  intro s
  induction s with
  | nil => intro c hc _; exact absurd hc (by simp)
  | cons a tl ih =>
      intro c hc hbad
      have hpc : p (a :: tl) = false := by
        cases hps : p (a :: tl)
        · rfl
        · obtain ⟨x, hx, hbx⟩ := hp _ hps
          rw [hc] at hx
          injection hx with hx
          rw [hx] at hbad
          rw [hbad] at hbx
          exact absurd hbx (by simp)
      cases tl with
      | nil =>
          have hpn : p [] = false := by
            cases hps : p []
            · rfl
            · obtain ⟨x, hx, _⟩ := hp _ hps
              exact absurd hx (by simp)
          simp [firstSuffixMatch, hpc, hpn]
      | cons b tl2 =>
          have hc2 : (b :: tl2).getLast? = some c := by
            rw [← List.getLast?_cons_cons (a := a)]; exact hc
          rw [show firstSuffixMatch p (a :: b :: tl2)
              = if p (a :: b :: tl2) = true then some 0
                else (firstSuffixMatch p (b :: tl2)).map (· + 1) from rfl]
          rw [if_neg (by simp [hpc]), ih c hc2 hbad]
          rfl

lemma firstSuffixMatch_none_of_pred {p : List Char → Bool} {q : Char → Bool}
    (hp : ∀ t, p t = true → t.any q = true) :
    ∀ s : List Char, s.any q = false → firstSuffixMatch p s = none := by
  intro s
  induction s with
  | nil =>
      intro _
      have hpn : p [] = false := by
        cases hps : p []
        · rfl
        · have := hp [] hps; exact absurd this (by simp)
      simp [firstSuffixMatch, hpn]
  | cons c tl ih =>
      intro hany
      rw [List.any_cons] at hany
      have hqc : q c = false := by
        cases h : q c
        · rfl
        · rw [h] at hany; exact absurd hany (by simp)
      have htl : tl.any q = false := by
        cases h : tl.any q
        · rfl
        · rw [h] at hany; rw [hqc] at hany; exact absurd hany (by simp)
      have hpc : p (c :: tl) = false := by
        cases hps : p (c :: tl)
        · rfl
        · have := hp _ hps
          rw [List.any_cons, hqc, htl] at this
          exact absurd this (by simp)
      simp [firstSuffixMatch, hpc, ih htl]

lemma windowOf_short (text : List Char) (h : text.length ≤ 8192) :
    windowOf text (text.length : Int) = (0, text) := by
  unfold windowOf clampOffset
  rw [if_neg (not_lt.mpr (Int.natCast_nonneg text.length))]
  rw [Int.toNat_natCast, Nat.min_self]
  show ((if text.length ≤ 8192 then 0 else text.length - 8192),
        List.drop (if text.length ≤ 8192 then 0 else text.length - 8192)
          (List.take text.length text)) = (0, text)
  rw [if_pos h, List.drop_zero, List.take_length]

/-- For an end-anchored pattern on a short text with the cursor at the
end, `matchBefore` returns `none` when the text's last character can end
no match. -/
lemma matchBeforeAnchored_none_of_lastChar {p : List Char → Bool} {bad : Char → Bool}
    (hp : ∀ t, p t = true → ∃ x, t.getLast? = some x ∧ bad x = true)
    {text : List Char} {c : Char}
    (hlast : text.getLast? = some c) (hbad : bad c = false)
    (hlen : text.length ≤ 8192) :
    matchBeforeAnchored p text (text.length : Int) = none := by
  unfold matchBeforeAnchored
  rw [windowOf_short text hlen]
  show (firstSuffixMatch p text).map _ = none
  rw [firstSuffixMatch_none_of_lastChar hp text c hlast hbad]
  rfl

/-- Ditto when the pattern requires a character class that the text
avoids entirely. -/
lemma matchBeforeAnchored_none_of_pred {p : List Char → Bool} {q : Char → Bool}
    (hp : ∀ t, p t = true → t.any q = true)
    {text : List Char} (hq : text.any q = false) (hlen : text.length ≤ 8192) :
    matchBeforeAnchored p text (text.length : Int) = none := by
  unfold matchBeforeAnchored
  rw [windowOf_short text hlen]
  show (firstSuffixMatch p text).map _ = none
  rw [firstSuffixMatch_none_of_pred hp text hq]
  rfl

/-- When the whole (short) text matches the pattern, `matchBefore` with
the cursor at the end returns the whole text as the match. -/
lemma matchBeforeAnchored_head {p : List Char → Bool} {text : List Char}
    (hp : p text = true) (hlen : text.length ≤ 8192) :
    matchBeforeAnchored p text (text.length : Int)
      = some ⟨0, text.length, text⟩ := by
  unfold matchBeforeAnchored
  rw [windowOf_short text hlen]
  show (firstSuffixMatch p text).map _ = some _
  rw [firstSuffixMatch_of_head hp]
  simp

lemma lastIndexOfCh_none_of_all {c : Char} {s : List Char}
    (h : s.all (fun x => !(x = c)) = true) : lastIndexOfCh c s = none := by
  induction s with
  | nil => rfl
  | cons a tl ih =>
      rw [List.all_cons] at h
      have ha : (a = c) = False := by
        cases hac : decide (a = c)
        · simpa using of_decide_eq_false hac
        · rw [hac] at h; exact absurd h (by simp)
      have htl : tl.all (fun x => !(x = c)) = true := by
        cases hh : tl.all (fun x => !(x = c))
        · rw [hh] at h; exact absurd h (by simp)
        · rfl
      simp only [lastIndexOfCh, ih htl]
      simp [ha]

lemma lastIndexOfCh_append_right_none {c : Char} {pre frag : List Char}
    (h : lastIndexOfCh c frag = none) :
    lastIndexOfCh c (pre ++ frag) = lastIndexOfCh c pre := by
  induction pre with
  | nil => simp only [List.nil_append, h]; rfl
  | cons a ps ih => simp only [List.cons_append, lastIndexOfCh, List.append_eq, ih]

lemma lastIndexOfCh_concat_self (c : Char) (l : List Char) :
    lastIndexOfCh c (l ++ [c]) = some l.length := by
  induction l with
  | nil => simp [lastIndexOfCh]
  | cons a ps ih => simp only [List.cons_append, lastIndexOfCh, List.append_eq, ih, List.length_cons]

lemma fragAfterDelim_none {isDelim isFragChar : Char → Bool} {s : List Char}
    (h : s.all (fun c => !isDelim c) = true) :
    fragAfterDelim isDelim isFragChar s = none := by
  induction s with
  | nil => rfl
  | cons a tl ih =>
      rw [List.all_cons] at h
      have ha : isDelim a = false := by
        cases hh : isDelim a
        · rfl
        · rw [hh] at h; exact absurd h (by simp)
      have htl : tl.all (fun c => !isDelim c) = true := by
        cases hh : tl.all (fun c => !isDelim c)
        · rw [hh] at h; rw [ha] at h; exact absurd h (by simp)
        · rfl
      simp [fragAfterDelim, ha, ih htl]

lemma plainFragChar_parts {c : Char} (h : plainFragChar c = true) :
    isQuoteSD c = false ∧ isSpaceJS c = false ∧ decide (c = '(') = false ∧
    decide (c = '[') = false ∧ decide (c = lbrace) = false ∧
    decide (c = '<') = false ∧ decide (c = ':') = false := by
  unfold plainFragChar at h
  simp only [Bool.and_eq_true, Bool.not_eq_true'] at h
  obtain ⟨⟨⟨⟨⟨⟨h1, h2⟩, h3⟩, h4⟩, h5⟩, h6⟩, h7⟩ := h
  exact ⟨h1, h2, h3, h4, h5, h6, h7⟩

lemma plain_not_bad {c : Char} (h : plainFragChar c = true) :
    (c = '(' || isSpaceJS c) = false := by
  obtain ⟨_, h2, h3, _⟩ := plainFragChar_parts h
  simp only [h3, h2, Bool.or_false]

lemma plain_not_delim {c : Char} (h : plainFragChar c = true) :
    isOpenDelim c = false := by
  obtain ⟨_, h2, h3, h4, h5, h6, _⟩ := plainFragChar_parts h
  unfold isOpenDelim
  simp only [h2, h3, h4, h5, h6, Bool.or_false, Bool.false_or]

lemma plain_not_dquote {c : Char} (h : plainFragChar c = true) :
    (!(c = dquote)) = true := by
  obtain ⟨h1, _⟩ := plainFragChar_parts h
  unfold isQuoteSD at h1
  cases hd : decide (c = dquote)
  · rfl
  · rw [hd] at h1; simp at h1

lemma plain_not_squote {c : Char} (h : plainFragChar c = true) :
    (!(c = squote)) = true := by
  obtain ⟨h1, _⟩ := plainFragChar_parts h
  unfold isQuoteSD at h1
  cases hd : decide (c = squote)
  · rfl
  · rw [hd] at h1; simp at h1

lemma plain_not_quoteSD {c : Char} (h : plainFragChar c = true) :
    (!isQuoteSD c) = true := by
  obtain ⟨h1, _⟩ := plainFragChar_parts h
  simp [h1]

lemma plainFragChar_colon_false : plainFragChar ':' = false := by decide

lemma not_mem_of_plain {c : Char} (hc : plainFragChar c = false) {s : List Char}
    (hs : s.all plainFragChar = true) : c ∉ s := by
  intro hmem
  have := (List.all_eq_true.mp hs) c hmem
  rw [hc] at this
  exact absurd this (by simp)

lemma any_beq_false_of_not_mem {c : Char} {s : List Char} (h : c ∉ s) :
    s.any (fun x => x == c) = false := by
  cases ha : s.any (fun x => x == c)
  · rfl
  · rw [List.any_eq_true] at ha
    obtain ⟨x, hx, hbeq⟩ := ha
    have hxc := eq_of_beq hbeq
    subst hxc
    exact absurd hx h

/-- Last character of `pre ++ frag` for plain fragments: the last plain
character, or the last of `pre` when the fragment is empty. -/
lemma family_getLast_bad {A : List Char} {z : Char}
    (hlastPre : A.getLast? = some z)
    (hbadPre : (z = '(' || isSpaceJS z) = false)
    {frag : List Char} (hf : frag.all plainFragChar = true) :
    ∃ c, (A ++ frag).getLast? = some c ∧ (c = '(' || isSpaceJS c) = false := by
  cases frag with
  | nil => exact ⟨z, by rw [List.append_nil]; exact hlastPre, hbadPre⟩
  | cons b u =>
      have hsome : ∃ y, (b :: u).getLast? = some y := by
        cases hg : (b :: u).getLast? with
        | none => exact absurd (List.getLast?_eq_none_iff.mp hg) (by simp)
        | some y => exact ⟨y, rfl⟩
      obtain ⟨y, hy⟩ := hsome
      refine ⟨y, by rw [List.getLast?_append, hy]; rfl, ?_⟩
      exact plain_not_bad (getLast?_of_all hf hy)

/-- The `..._WITH_QUOTES` pattern holds on a whole `name("frag` text. -/
lemma matchWithQuotes_family (name frag : List Char)
    (hq : frag.all (fun c => !isQuoteSD c) = true) :
    matchWithQuotesAt name ((name ++ ['(']) ++ dquote :: frag) = true := by
  unfold matchWithQuotesAt
  rw [dropPre_self]
  show (match (dquote :: frag).dropWhile isSpaceJS with
        | [] => false
        | q :: tl => isQuoteSD q && tl.all (fun c => !isQuoteSD c)) = true
  rw [List.dropWhile_cons]
  rw [if_neg (by decide : ¬ (isSpaceJS dquote = true))]
  show (isQuoteSD dquote && frag.all (fun c => !isQuoteSD c)) = true
  rw [hq]
  decide

/-- The `..._AFTER_COLON` pattern holds on a whole `name("pre:post` text. -/
lemma matchAfterColon_family (name pre post : List Char)
    (hqpre : pre.all (fun c => !isQuoteSD c) = true)
    (hqpost : post.all (fun c => !isQuoteSD c) = true) :
    matchAfterColonAt name ((name ++ ['(']) ++ dquote :: (pre ++ ':' :: post)) = true := by
  unfold matchAfterColonAt
  rw [dropPre_self]
  show (match (dquote :: (pre ++ ':' :: post)).dropWhile isSpaceJS with
        | [] => false
        | q :: tl => isQuoteSD q && tl.all (fun c => !isQuoteSD c) && tl.contains ':') = true
  rw [List.dropWhile_cons]
  rw [if_neg (by decide : ¬ (isSpaceJS dquote = true))]
  show (isQuoteSD dquote && (pre ++ ':' :: post).all (fun c => !isQuoteSD c)
        && (pre ++ ':' :: post).contains ':') = true
  have hall : (pre ++ ':' :: post).all (fun c => !isQuoteSD c) = true := by
    rw [List.all_append, hqpre, List.all_cons, hqpost]
    decide
  have hcon : (pre ++ ':' :: post).contains ':' = true := by
    have hmem : (':' : Char) ∈ pre ++ ':' :: post :=
      List.mem_append_right _ (List.mem_cons_self _ _)
    simp [hmem]
  rw [hall, hcon]
  decide

/-- Any successful `..._AFTER_COLON` match contains a colon. -/
lemma matchAfterColonAt_has_colon (name : List Char) :
    ∀ t, matchAfterColonAt name t = true → t.any (fun c => c == ':') = true := by
  intro t h
  unfold matchAfterColonAt at h
  cases hd : dropPre (name ++ ['(']) t with
  | none => rw [hd] at h; exact absurd h (by simp)
  | some rest =>
      rw [hd] at h
      have h' : (match rest.dropWhile isSpaceJS with
        | [] => false
        | q :: tl => isQuoteSD q && tl.all (fun c => !isQuoteSD c) && tl.contains ':')
          = true := h
      have ht := dropPre_eq hd
      subst ht
      cases hw : rest.dropWhile isSpaceJS with
      | nil => rw [hw] at h'; exact absurd h' (by simp)
      | cons q tl =>
          rw [hw] at h'
          simp only [Bool.and_eq_true] at h'
          have hcon : tl.contains ':' = true := h'.2
          have hmem : (':' : Char) ∈ tl := by simpa using hcon
          have hrest : (':' : Char) ∈ rest := by
            have hsplit : rest = rest.takeWhile isSpaceJS ++ (q :: tl) := by
              rw [← hw, List.takeWhile_append_dropWhile]
            rw [hsplit]
            exact List.mem_append_right _ (List.mem_cons_of_mem _ hmem)
          have hmemt : (':' : Char) ∈ (name ++ ['(']) ++ rest :=
            List.mem_append_right _ hrest
          rw [List.any_eq_true]
          exact ⟨':', hmemt, by simp⟩

/-- `maxQuoteIdx` on `pre ++ frag` for a quote-free fragment. -/
lemma maxQuoteIdx_family {pre frag : List Char} {k : Nat}
    (hfd : frag.all (fun x => !(x = dquote)) = true)
    (hfs : frag.all (fun x => !(x = squote)) = true)
    (hd : lastIndexOfCh dquote pre = some k)
    (hs : lastIndexOfCh squote pre = none) :
    maxQuoteIdx (pre ++ frag) = some k := by
  unfold maxQuoteIdx
  rw [lastIndexOfCh_append_right_none (lastIndexOfCh_none_of_all hfd), hd,
      lastIndexOfCh_append_right_none (lastIndexOfCh_none_of_all hfs), hs]

lemma plain_not_delim' {c : Char} (h : plainFragChar c = true) :
    (!isOpenDelim c) = true := by
  rw [plain_not_delim h]; rfl

/-- C10. Inside `s("` / `bank("` call-sites, for every plain fragment (no
quotes, whitespace, brackets, parens, `<` or colons): the sound handler
returns exactly the sorted sound names that contain the fragment as a
substring anywhere, while the bank handler returns exactly the sorted
bank names that start with the fragment; both anchor `from` at the start
of the fragment (offset 3 after `s("`, offset 6 after `bank("`). -/
theorem soundBank_filter_semantics (frag : List Char)
    (soundNames bankNames : List (List Char))
    (hf : frag.all plainFragChar = true)
    (hlen : frag.length + 6 ≤ 8192) :
    soundHandler ("s(\"".toList ++ frag)
        ((("s(\"".toList ++ frag).length : Int)) soundNames
      = some ⟨3, ((sortJS soundNames).filter (fun n => includesJS n frag)).map
            (fun l => ⟨l, some ("sound".toList), none, none⟩)⟩ ∧
    bankHandler ("bank(\"".toList ++ frag)
        ((("bank(\"".toList ++ frag).length : Int)) bankNames
      = some ⟨6, ((sortJS bankNames).filter (fun b => frag.isPrefixOf b)).map
            (fun l => ⟨l, some ("bank".toList), none, none⟩)⟩ := by
  have hq : frag.all (fun c => !isQuoteSD c) = true :=
    all_mono (fun c h => plain_not_quoteSD h) hf
  have hdq : frag.all (fun x => !(x = dquote)) = true :=
    all_mono (fun c h => plain_not_dquote h) hf
  have hsq : frag.all (fun x => !(x = squote)) = true :=
    all_mono (fun c h => plain_not_squote h) hf
  constructor
  · -- sound
    have hlen3 : ("s(\"".toList ++ frag).length ≤ 8192 := by
      rw [List.length_append]
      have : ("s(\"".toList).length = 3 := by decide
      omega
    have hpNo : ∀ t,
        (matchNoQuotesAt ['s'] t || matchNoQuotesAt ("sound".toList) t) = true →
        ∃ x, t.getLast? = some x ∧ (x = '(' || isSpaceJS x) = true := by
      intro t ht
      rw [Bool.or_eq_true] at ht
      cases ht with
      | inl h => exact matchNoQuotesAt_ends _ _ h
      | inr h => exact matchNoQuotesAt_ends _ _ h
    obtain ⟨cl, hcl, hbad⟩ :=
      family_getLast_bad (A := "s(\"".toList) (z := dquote)
        (by decide) (by decide) hf
    have hNo := matchBeforeAnchored_none_of_lastChar hpNo hcl hbad hlen3
    have hWq : (matchWithQuotesAt ['s'] ("s(\"".toList ++ frag)
        || matchWithQuotesAt ("sound".toList) ("s(\"".toList ++ frag)) = true := by
      have : matchWithQuotesAt ['s'] ("s(\"".toList ++ frag) = true := by
        have he : "s(\"".toList ++ frag = (['s'] ++ ['(']) ++ dquote :: frag := rfl
        rw [he]
        exact matchWithQuotes_family ['s'] frag hq
      rw [this]; rfl
    have hWith := matchBeforeAnchored_head
      (p := fun s => matchWithQuotesAt ['s'] s
        || matchWithQuotesAt ("sound".toList) s) hWq hlen3
    have hQI : maxQuoteIdx ("s(\"".toList ++ frag) = some 2 :=
      maxQuoteIdx_family hdq hsq (by decide) (by decide)
    have hinside : ("s(\"".toList ++ frag).drop (2 + 1) = frag := by
      have h3 : (2 + 1 : Nat) = ("s(\"".toList).length := by decide
      rw [h3, List.drop_left]
    have hfragment : extractSoundFragment frag = frag := by
      unfold extractSoundFragment
      rw [fragAfterDelim_none (all_mono (fun c h => plain_not_delim' h) hf)]
    have hfrom : ("s(\"".toList ++ frag).length - frag.length = 3 := by
      rw [List.length_append]
      have : ("s(\"".toList).length = 3 := by decide
      omega
    unfold soundHandler
    rw [hNo, hWith]
    dsimp only
    rw [hQI]
    dsimp only
    rw [hinside, hfragment, hfrom]
  · -- bank
    have hlen6 : ("bank(\"".toList ++ frag).length ≤ 8192 := by
      rw [List.length_append]
      have : ("bank(\"".toList).length = 6 := by decide
      omega
    obtain ⟨cl, hcl, hbad⟩ :=
      family_getLast_bad (A := "bank(\"".toList) (z := dquote)
        (by decide) (by decide) hf
    have hNo := matchBeforeAnchored_none_of_lastChar
      (fun t h => matchNoQuotesAt_ends ("bank".toList) t h) hcl hbad hlen6
    have hWq : matchWithQuotesAt ("bank".toList) ("bank(\"".toList ++ frag) = true := by
      have he : "bank(\"".toList ++ frag
          = (("bank".toList) ++ ['(']) ++ dquote :: frag := rfl
      rw [he]
      exact matchWithQuotes_family ("bank".toList) frag hq
    have hWith := matchBeforeAnchored_head hWq hlen6
    have hQI : maxQuoteIdx ("bank(\"".toList ++ frag) = some 5 :=
      maxQuoteIdx_family hdq hsq (by decide) (by decide)
    have hinside : ("bank(\"".toList ++ frag).drop (5 + 1) = frag := by
      have h6 : (5 + 1 : Nat) = ("bank(\"".toList).length := by decide
      rw [h6, List.drop_left]
    have hfrom : ("bank(\"".toList ++ frag).length - frag.length = 6 := by
      rw [List.length_append]
      have : ("bank(\"".toList).length = 6 := by decide
      omega
    unfold bankHandler
    rw [hNo, hWith]
    dsimp only
    rw [hQI]
    dsimp only
    rw [hinside, hfrom]

/-- Witness for C10 at fragment `bd`, sounds `["bd","xbd","cp"]` and banks
`["bd","xbd"]`: the sound filter keeps `xbd` (substring, not prefix) while
the bank filter drops it. -/
theorem soundBank_filter_semantics_witness :
    ("bd".toList.all plainFragChar = true) ∧
    ("bd".toList.length + 6 ≤ 8192) ∧
    (soundHandler ("s(\"".toList ++ "bd".toList)
        ((("s(\"".toList ++ "bd".toList).length : Int))
        ["bd".toList, "xbd".toList, "cp".toList]
      = some ⟨3, ((sortJS ["bd".toList, "xbd".toList, "cp".toList]).filter
            (fun n => includesJS n ("bd".toList))).map
            (fun l => ⟨l, some ("sound".toList), none, none⟩)⟩ ∧
     bankHandler ("bank(\"".toList ++ "bd".toList)
        ((("bank(\"".toList ++ "bd".toList).length : Int))
        ["bd".toList, "xbd".toList]
      = some ⟨6, ((sortJS ["bd".toList, "xbd".toList]).filter
            (fun b => ("bd".toList).isPrefixOf b)).map
            (fun l => ⟨l, some ("bank".toList), none, none⟩)⟩) ∧
    ((sortJS ["bd".toList, "xbd".toList, "cp".toList]).filter
        (fun n => includesJS n ("bd".toList)) = ["bd".toList, "xbd".toList]) ∧
    ((sortJS ["bd".toList, "xbd".toList]).filter
        (fun b => ("bd".toList).isPrefixOf b) = ["bd".toList]) :=
  ⟨by decide, by decide,
   soundBank_filter_semantics ("bd".toList)
     ["bd".toList, "xbd".toList, "cp".toList] ["bd".toList, "xbd".toList]
     (by decide) (by decide),
   by decide, by decide⟩

lemma plain_not_colon' {c : Char} (h : plainFragChar c = true) :
    (!(c = ':')) = true := by
  obtain ⟨_, _, _, _, _, _, h7⟩ := plainFragChar_parts h
  simp only [h7]; rfl

lemma any_beq_colon_append {pre frag : List Char}
    (hpre : pre.any (fun x => x == ':') = false)
    (hf : frag.all plainFragChar = true) :
    (pre ++ frag).any (fun x => x == ':') = false := by
  rw [List.any_append, hpre,
      any_beq_false_of_not_mem (not_mem_of_plain plainFragChar_colon_false hf)]
  rfl

lemma contains_colon_false {text : List Char}
    (h : text.any (fun x => x == ':') = false) : text.contains ':' = false := by
  cases hc : text.contains ':'
  · rfl
  · have hmem : (':' : Char) ∈ text := by simpa using hc
    have hany : text.any (fun x => x == ':') = true :=
      List.any_eq_true.mpr ⟨':', hmem, by simp⟩
    rw [h] at hany
    exact absurd hany (by simp)

lemma scalePitchFragment_family (frag : List Char) :
    scalePitchFragment ("scale(\"".toList ++ frag) = scalePitchFragment frag := by
  have step1 : ∀ (c : Char) (rest : List Char), isPitchLetter c = false →
      scalePitchFragment (c :: rest) = scalePitchFragment rest := by
    intro c rest hc
    simp [scalePitchFragment, hc]
  have step2 : ∀ (c d : Char) (rest : List Char), isSharpFlat d = false →
      scalePitchFragment (c :: d :: rest) = scalePitchFragment (d :: rest) := by
    intro c d rest hd
    have hall : (d :: rest).all isSharpFlat = false := by
      rw [List.all_cons, hd]; rfl
    simp [scalePitchFragment, hall]
  show scalePitchFragment
      ('s' :: 'c' :: 'a' :: 'l' :: 'e' :: '(' :: dquote :: frag)
    = scalePitchFragment frag
  rw [step1 's' _ (by decide), step2 'c' 'a' _ (by decide),
      step2 'a' 'l' _ (by decide), step1 'l' _ (by decide),
      step2 'e' '(' _ (by decide), step1 '(' _ (by decide),
      step1 dquote _ (by decide)]

/-- `scaleHandler` on a pre-colon call-site `scale("frag`: a passive
request gets the terminal empty result at the cursor; an explicit request
gets the pitch names filtered case-insensitively by the trailing pitch
fragment, anchored at the fragment start. -/
lemma scaleHandler_pre_spec (frag : List Char)
    (hf : frag.all plainFragChar = true)
    (hlen : frag.length + 7 ≤ 8192) :
    scaleHandler ("scale(\"".toList ++ frag)
        ((("scale(\"".toList ++ frag).length : Int)) false
      = some ⟨("scale(\"".toList ++ frag).length, []⟩ ∧
    scaleHandler ("scale(\"".toList ++ frag)
        ((("scale(\"".toList ++ frag).length : Int)) true
      = some ⟨("scale(\"".toList ++ frag).length
                - (scalePitchFragment frag).length,
              (pitchNames.filter (fun p =>
                (lowerStr (scalePitchFragment frag)).isPrefixOf (lowerStr p))).map
                (fun p => ⟨p, some ("pitch".toList), none, none⟩)⟩ := by
  have hq : frag.all (fun c => !isQuoteSD c) = true :=
    all_mono (fun c h => plain_not_quoteSD h) hf
  have hlen7 : ("scale(\"".toList ++ frag).length ≤ 8192 := by
    rw [List.length_append]
    have : ("scale(\"".toList).length = 7 := by decide
    omega
  obtain ⟨cl, hcl, hbad⟩ :=
    family_getLast_bad (A := "scale(\"".toList) (z := dquote)
      (by decide) (by decide) hf
  have hNo := matchBeforeAnchored_none_of_lastChar
    (fun t h => matchNoQuotesAt_ends ("scale".toList) t h) hcl hbad hlen7
  have hanyc : ("scale(\"".toList ++ frag).any (fun x => x == ':') = false :=
    any_beq_colon_append (by decide) hf
  have hAC := matchBeforeAnchored_none_of_pred
    (matchAfterColonAt_has_colon ("scale".toList)) hanyc hlen7
  have hWq : matchWithQuotesAt ("scale".toList) ("scale(\"".toList ++ frag) = true := by
    have he : "scale(\"".toList ++ frag
        = (("scale".toList) ++ ['(']) ++ dquote :: frag := rfl
    rw [he]
    exact matchWithQuotes_family ("scale".toList) frag hq
  have hWith := matchBeforeAnchored_head hWq hlen7
  have hcont : ("scale(\"".toList ++ frag).contains ':' = false :=
    contains_colon_false hanyc
  have hpf := scalePitchFragment_family frag
  constructor
  · unfold scaleHandler
    rw [hNo, hAC]
    dsimp only
    rw [hWith]
    dsimp only
    rw [hcont]
    rfl
  · unfold scaleHandler
    rw [hNo, hAC]
    dsimp only
    rw [hWith]
    dsimp only
    rw [hcont]
    show some (⟨("scale(\"".toList ++ frag).length
          - (scalePitchFragment ("scale(\"".toList ++ frag)).length,
        (pitchNames.filter (fun p =>
          (lowerStr (scalePitchFragment ("scale(\"".toList ++ frag))).isPrefixOf
            (lowerStr p))).map
          (fun p => (⟨p, some ("pitch".toList), none, none⟩ : CmOption))⟩ : CmResult)
      = _
    rw [hpf]

lemma family_getLast_bad_colon {A B C : List Char}
    (hC : C.all plainFragChar = true) :
    ∃ c, (A ++ (B ++ ':' :: C)).getLast? = some c
      ∧ (c = '(' || isSpaceJS c) = false := by
  cases C with
  | nil =>
      refine ⟨':', ?_, by decide⟩
      rw [List.getLast?_append, List.getLast?_append]
      simp
  | cons b u =>
      have hsome : ∃ y, (b :: u).getLast? = some y := by
        cases hg : (b :: u).getLast? with
        | none => exact absurd (List.getLast?_eq_none_iff.mp hg) (by simp)
        | some y => exact ⟨y, rfl⟩
      obtain ⟨y, hy⟩ := hsome
      refine ⟨y, ?_, plain_not_bad (getLast?_of_all hC hy)⟩
      rw [List.getLast?_append, List.getLast?_append, List.getLast?_cons_cons, hy]
      simp

/-- `scaleHandler` on an after-colon call-site `scale("pre:post`: the
scale-name vocabulary (empty upstream) filtered by the text after the
last colon, anchored exactly one position past that colon. -/
lemma scaleHandler_after_spec (preS postS : List Char) (e : Bool)
    (hpre : preS.all plainFragChar = true)
    (hpost : postS.all plainFragChar = true)
    (hlen : preS.length + postS.length + 8 ≤ 8192) :
    scaleHandler ("scale(\"".toList ++ (preS ++ ':' :: postS))
        ((("scale(\"".toList ++ (preS ++ ':' :: postS)).length : Int)) e
      = some ⟨7 + preS.length + 1, []⟩ := by
  have hqpre : preS.all (fun c => !isQuoteSD c) = true :=
    all_mono (fun c h => plain_not_quoteSD h) hpre
  have hqpost : postS.all (fun c => !isQuoteSD c) = true :=
    all_mono (fun c h => plain_not_quoteSD h) hpost
  have hlenT : ("scale(\"".toList ++ (preS ++ ':' :: postS)).length ≤ 8192 := by
    simp only [List.length_append, List.length_cons]
    have : ("scale(\"".toList).length = 7 := by decide
    omega
  obtain ⟨cl, hcl, hbad⟩ :=
    family_getLast_bad_colon (A := "scale(\"".toList) (B := preS) (C := postS) hpost
  have hNo := matchBeforeAnchored_none_of_lastChar
    (fun t h => matchNoQuotesAt_ends ("scale".toList) t h) hcl hbad hlenT
  have hACq : matchAfterColonAt ("scale".toList)
      ("scale(\"".toList ++ (preS ++ ':' :: postS)) = true := by
    have he : "scale(\"".toList ++ (preS ++ ':' :: postS)
        = (("scale".toList) ++ ['(']) ++ dquote :: (preS ++ ':' :: postS) := rfl
    rw [he]
    exact matchAfterColon_family ("scale".toList) preS postS hqpre hqpost
  have hAC := matchBeforeAnchored_head hACq hlenT
  have hshape : (("scale(\"".toList ++ preS) ++ [':']) ++ postS
      = "scale(\"".toList ++ (preS ++ ':' :: postS) := by
    rw [List.append_assoc, List.append_assoc]
    rfl
  have hci : lastIndexOfCh ':' ("scale(\"".toList ++ (preS ++ ':' :: postS))
      = some (7 + preS.length) := by
    rw [← hshape]
    rw [lastIndexOfCh_append_right_none
      (lastIndexOfCh_none_of_all (all_mono (fun c h => plain_not_colon' h) hpost))]
    rw [lastIndexOfCh_concat_self]
    rw [List.length_append]
    have : ("scale(\"".toList).length = 7 := by decide
    rw [this]
  unfold scaleHandler
  rw [hNo, hAC]
  dsimp only
  rw [hci]
  dsimp only
  rw [show scaleCompletions.filter (fun s =>
      (("scale(\"".toList ++ (preS ++ ':' :: postS)).drop
        (7 + preS.length + 1)).isPrefixOf s.label) = [] from rfl]
  simp

/-- `modeHandler` on an after-colon call-site `mode("name:frag`: the pitch
names filtered case-insensitively by the text after the last colon,
anchored exactly one position past that colon. -/
lemma modeHandler_after_spec (nameM fragM : List Char)
    (hname : nameM.all plainFragChar = true)
    (hfrag : fragM.all plainFragChar = true)
    (hlen : nameM.length + fragM.length + 7 ≤ 8192) :
    modeHandler ("mode(\"".toList ++ (nameM ++ ':' :: fragM))
        ((("mode(\"".toList ++ (nameM ++ ':' :: fragM)).length : Int))
      = some ⟨6 + nameM.length + 1,
          (pitchNames.filter (fun p =>
            (lowerStr fragM).isPrefixOf (lowerStr p))).map
            (fun p => ⟨p, some ("pitch".toList), none, none⟩)⟩ := by
  have hqname : nameM.all (fun c => !isQuoteSD c) = true :=
    all_mono (fun c h => plain_not_quoteSD h) hname
  have hqfrag : fragM.all (fun c => !isQuoteSD c) = true :=
    all_mono (fun c h => plain_not_quoteSD h) hfrag
  have hlenT : ("mode(\"".toList ++ (nameM ++ ':' :: fragM)).length ≤ 8192 := by
    simp only [List.length_append, List.length_cons]
    have : ("mode(\"".toList).length = 6 := by decide
    omega
  obtain ⟨cl, hcl, hbad⟩ :=
    family_getLast_bad_colon (A := "mode(\"".toList) (B := nameM) (C := fragM) hfrag
  have hNo := matchBeforeAnchored_none_of_lastChar
    (fun t h => matchNoQuotesAt_ends ("mode".toList) t h) hcl hbad hlenT
  have hACq : matchAfterColonAt ("mode".toList)
      ("mode(\"".toList ++ (nameM ++ ':' :: fragM)) = true := by
    have he : "mode(\"".toList ++ (nameM ++ ':' :: fragM)
        = (("mode".toList) ++ ['(']) ++ dquote :: (nameM ++ ':' :: fragM) := rfl
    rw [he]
    exact matchAfterColon_family ("mode".toList) nameM fragM hqname hqfrag
  have hAC := matchBeforeAnchored_head hACq hlenT
  have hshape : (("mode(\"".toList ++ nameM) ++ [':']) ++ fragM
      = "mode(\"".toList ++ (nameM ++ ':' :: fragM) := by
    rw [List.append_assoc, List.append_assoc]
    rfl
  have hci : lastIndexOfCh ':' ("mode(\"".toList ++ (nameM ++ ':' :: fragM))
      = some (6 + nameM.length) := by
    rw [← hshape]
    rw [lastIndexOfCh_append_right_none
      (lastIndexOfCh_none_of_all (all_mono (fun c h => plain_not_colon' h) hfrag))]
    rw [lastIndexOfCh_concat_self]
    rw [List.length_append]
    have : ("mode(\"".toList).length = 6 := by decide
    rw [this]
  have hdrop : ("mode(\"".toList ++ (nameM ++ ':' :: fragM)).drop
      (6 + nameM.length + 1) = fragM := by
    rw [← hshape]
    have hl : (6 + nameM.length + 1)
        = ((("mode(\"".toList ++ nameM) ++ [':'])).length := by
      simp only [List.length_append, List.length_cons, List.length_nil]
      have : ("mode(\"".toList).length = 6 := by decide
      omega
    rw [hl, List.drop_left]
  unfold modeHandler
  rw [hNo, hAC]
  dsimp only
  rw [hci]
  dsimp only
  rw [hdrop]
  simp only [Nat.zero_add]

/-- `modeHandler` on a pre-colon call-site `mode("frag`: the mode-name
completions filtered (case-sensitively) by the fragment, anchored at the
fragment start — with no dependence on how completion was requested. -/
lemma modeHandler_pre_spec (frag : List Char)
    (hf : frag.all plainFragChar = true)
    (hlen : frag.length + 6 ≤ 8192) :
    modeHandler ("mode(\"".toList ++ frag)
        ((("mode(\"".toList ++ frag).length : Int))
      = some ⟨6, modeCompletions.filter (fun mo => frag.isPrefixOf mo.label)⟩ := by
  have hq : frag.all (fun c => !isQuoteSD c) = true :=
    all_mono (fun c h => plain_not_quoteSD h) hf
  have hdq : frag.all (fun x => !(x = dquote)) = true :=
    all_mono (fun c h => plain_not_dquote h) hf
  have hsq : frag.all (fun x => !(x = squote)) = true :=
    all_mono (fun c h => plain_not_squote h) hf
  have hlenT : ("mode(\"".toList ++ frag).length ≤ 8192 := by
    rw [List.length_append]
    have : ("mode(\"".toList).length = 6 := by decide
    omega
  obtain ⟨cl, hcl, hbad⟩ :=
    family_getLast_bad (A := "mode(\"".toList) (z := dquote)
      (by decide) (by decide) hf
  have hNo := matchBeforeAnchored_none_of_lastChar
    (fun t h => matchNoQuotesAt_ends ("mode".toList) t h) hcl hbad hlenT
  have hanyc : ("mode(\"".toList ++ frag).any (fun x => x == ':') = false :=
    any_beq_colon_append (by decide) hf
  have hAC := matchBeforeAnchored_none_of_pred
    (matchAfterColonAt_has_colon ("mode".toList)) hanyc hlenT
  have hWq : matchWithQuotesAt ("mode".toList) ("mode(\"".toList ++ frag) = true := by
    have he : "mode(\"".toList ++ frag
        = (("mode".toList) ++ ['(']) ++ dquote :: frag := rfl
    rw [he]
    exact matchWithQuotes_family ("mode".toList) frag hq
  have hWith := matchBeforeAnchored_head hWq hlenT
  have hQI : maxQuoteIdx ("mode(\"".toList ++ frag) = some 5 :=
    maxQuoteIdx_family hdq hsq (by decide) (by decide)
  have hinside : ("mode(\"".toList ++ frag).drop (5 + 1) = frag := by
    have h6 : (5 + 1 : Nat) = ("mode(\"".toList).length := by decide
    rw [h6, List.drop_left]
  have hfragment : fragAfterDelim isOpenDelim modeFragChar frag = none :=
    fragAfterDelim_none (all_mono (fun c h => plain_not_delim' h) hf)
  have hfrom : ("mode(\"".toList ++ frag).length - frag.length = 6 := by
    rw [List.length_append]
    have : ("mode(\"".toList).length = 6 := by decide
    omega
  unfold modeHandler
  rw [hNo, hAC]
  dsimp only
  rw [hWith]
  dsimp only
  rw [hQI]
  dsimp only
  rw [hinside, hfragment, hfrom]

/-- Counterexample to C3 as stated: inside `mode("b` (cursor at the end,
before any colon, request NOT explicit) the claim offers pitch-name
completions only when the request was explicit — but the handler chain
returns the mode-name completion `below` to the passive request. -/
theorem scaleMode_counterexample :
    isInsideString ("mode(\"b".toList) 7 = true ∧
    complete ("mode(\"b".toList) 7 false [] [] [] []
      = some ⟨6, [⟨"below".toList, some ("mode".toList), none, none⟩]⟩ :=
  ⟨by decide, by decide⟩

/-- C3 (amended). Scale call-sites behave two-phase as spelled out in the
claim: before a colon, pitch-name completions are offered only on an
explicit request (a passive request gets the terminal empty result), and
after a colon the scale-name vocabulary (empty upstream) filtered by the
text after the last colon is offered with `from` anchored one past that
colon.  Mode call-sites have the two phases reversed: before a colon the
handler offers mode-name completions filtered by the fragment regardless
of explicitness, and after a colon it offers pitch-name completions
filtered case-insensitively by the text after the last colon, with `from`
anchored one past that colon. -/
theorem scaleMode_two_phase (fragS preS postS nameM fragM fragMC : List Char)
    (e : Bool)
    (h1 : fragS.all plainFragChar = true)
    (h2 : preS.all plainFragChar = true)
    (h3 : postS.all plainFragChar = true)
    (h4 : nameM.all plainFragChar = true)
    (h5 : fragM.all plainFragChar = true)
    (h6 : fragMC.all plainFragChar = true)
    (hl1 : fragS.length + 7 ≤ 8192)
    (hl2 : preS.length + postS.length + 8 ≤ 8192)
    (hl3 : nameM.length + fragM.length + 7 ≤ 8192)
    (hl4 : fragMC.length + 6 ≤ 8192) :
    scaleHandler ("scale(\"".toList ++ fragS)
        ((("scale(\"".toList ++ fragS).length : Int)) false
      = some ⟨("scale(\"".toList ++ fragS).length, []⟩ ∧
    scaleHandler ("scale(\"".toList ++ fragS)
        ((("scale(\"".toList ++ fragS).length : Int)) true
      = some ⟨("scale(\"".toList ++ fragS).length
                - (scalePitchFragment fragS).length,
              (pitchNames.filter (fun p =>
                (lowerStr (scalePitchFragment fragS)).isPrefixOf (lowerStr p))).map
                (fun p => ⟨p, some ("pitch".toList), none, none⟩)⟩ ∧
    scaleHandler ("scale(\"".toList ++ (preS ++ ':' :: postS))
        ((("scale(\"".toList ++ (preS ++ ':' :: postS)).length : Int)) e
      = some ⟨7 + preS.length + 1, []⟩ ∧
    modeHandler ("mode(\"".toList ++ fragMC)
        ((("mode(\"".toList ++ fragMC).length : Int))
      = some ⟨6, modeCompletions.filter (fun mo => fragMC.isPrefixOf mo.label)⟩ ∧
    modeHandler ("mode(\"".toList ++ (nameM ++ ':' :: fragM))
        ((("mode(\"".toList ++ (nameM ++ ':' :: fragM)).length : Int))
      = some ⟨6 + nameM.length + 1,
          (pitchNames.filter (fun p =>
            (lowerStr fragM).isPrefixOf (lowerStr p))).map
            (fun p => ⟨p, some ("pitch".toList), none, none⟩)⟩ :=
  ⟨(scaleHandler_pre_spec fragS h1 hl1).1,
   (scaleHandler_pre_spec fragS h1 hl1).2,
   scaleHandler_after_spec preS postS e h2 h3 hl2,
   modeHandler_pre_spec fragMC h6 hl4,
   modeHandler_after_spec nameM fragM h4 h5 hl3⟩

/-- Witness for C3 (amended) at `scale("C`, `scale("C:maj`, `mode("b`
and `mode("duck:C`. -/
theorem scaleMode_two_phase_witness :
    (("C".toList).all plainFragChar = true ∧
     ("maj".toList).all plainFragChar = true ∧
     ("duck".toList).all plainFragChar = true ∧
     ("b".toList).all plainFragChar = true ∧
     ("C".toList).length + 7 ≤ 8192 ∧
     ("C".toList).length + ("maj".toList).length + 8 ≤ 8192 ∧
     ("duck".toList).length + ("C".toList).length + 7 ≤ 8192 ∧
     ("b".toList).length + 6 ≤ 8192) ∧
    (scaleHandler ("scale(\"".toList ++ "C".toList)
        ((("scale(\"".toList ++ "C".toList).length : Int)) false
      = some ⟨("scale(\"".toList ++ "C".toList).length, []⟩ ∧
     scaleHandler ("scale(\"".toList ++ "C".toList)
        ((("scale(\"".toList ++ "C".toList).length : Int)) true
      = some ⟨("scale(\"".toList ++ "C".toList).length
                - (scalePitchFragment ("C".toList)).length,
              (pitchNames.filter (fun p =>
                (lowerStr (scalePitchFragment ("C".toList))).isPrefixOf
                  (lowerStr p))).map
                (fun p => ⟨p, some ("pitch".toList), none, none⟩)⟩ ∧
     scaleHandler ("scale(\"".toList ++ ("C".toList ++ ':' :: "maj".toList))
        ((("scale(\"".toList ++ ("C".toList ++ ':' :: "maj".toList)).length : Int))
        true
      = some ⟨7 + ("C".toList).length + 1, []⟩ ∧
     modeHandler ("mode(\"".toList ++ "b".toList)
        ((("mode(\"".toList ++ "b".toList).length : Int))
      = some ⟨6, modeCompletions.filter (fun mo =>
            ("b".toList).isPrefixOf mo.label)⟩ ∧
     modeHandler ("mode(\"".toList ++ ("duck".toList ++ ':' :: "C".toList))
        ((("mode(\"".toList ++ ("duck".toList ++ ':' :: "C".toList)).length : Int))
      = some ⟨6 + ("duck".toList).length + 1,
          (pitchNames.filter (fun p =>
            (lowerStr ("C".toList)).isPrefixOf (lowerStr p))).map
            (fun p => ⟨p, some ("pitch".toList), none, none⟩)⟩) :=
  ⟨⟨by decide, by decide, by decide, by decide, by decide, by decide,
    by decide, by decide⟩,
   scaleMode_two_phase ("C".toList) ("C".toList) ("maj".toList)
     ("duck".toList) ("C".toList) ("b".toList) true
     (by decide) (by decide) (by decide) (by decide) (by decide) (by decide)
     (by decide) (by decide) (by decide) (by decide)⟩

/-- Counterexample to C4 as stated: with text `chord("C`, cursor at the
end, and the chord-symbol vocabulary `["", "maj7", "m7"]`, the returned
option labels are `Cmajor`, `Cm7`, `Cmaj7` — no option has label `C` (the
empty symbol is displayed as `major`, so the root-only option is labelled
`Cmajor`, though it still applies `C`). -/
theorem chordHandler_counterexample :
    (chordHandler ("chord(\"C".toList) 8
        (getChordSymbolCompletions ["maj7".toList, "m7".toList])).map
      (fun r => (r.rfrom, r.options.map CmOption.label,
        r.options.all (fun o => !(o.label == "C".toList))))
      = some (7, ["Cmajor".toList, "Cm7".toList, "Cmaj7".toList], true) := by
  decide

/-- C4 (amended). For text `chord("C` with the cursor at the end and the
chord-symbol vocabulary `["", "maj7", "m7"]`: the root `C` is recognized
and the options are `Cmajor` (whose applied text is the root alone, `C`,
coming from the empty symbol), `Cm7` and `Cmaj7` (applying themselves),
with `from` at the offset of `C` (7). -/
theorem chordHandler_example :
    chordHandler ("chord(\"C".toList) 8
        (getChordSymbolCompletions ["maj7".toList, "m7".toList])
      = some ⟨7,
          [⟨"Cmajor".toList, some ("chord-symbol".toList),
            some ("C".toList), some ("C".toList)⟩,
           ⟨"Cm7".toList, some ("chord-symbol".toList),
            some ("Cm7".toList), some ("Cm7".toList)⟩,
           ⟨"Cmaj7".toList, some ("chord-symbol".toList),
            some ("Cmaj7".toList), some ("Cmaj7".toList)⟩]⟩ := by
  decide

end Strudel
